import Mathlib

/-!
# A verification development of go-distributed/persistence

A shallow embedding of the seekable record store (`file/file.go`), of the
facade with its bulk read (`persistence.go`) and of the simple store
(`store.go`), followed by theorems about them.

The Go standard library underneath (`os.File`, `bufio`, `io.ReadFull`,
`encoding/binary`, the part of `reflect` that `ReadAll` uses) is modelled by
the small definitions at the start.  Storage failures are outside the model:
a write or a truncation of the underlying file always succeeds.
-/

namespace Persistence

/-! ## Bytes, errors, results -/

abbrev Byte := UInt8

/-- The error values that the modelled code can return. -/
inductive Err where
  /-- The value `io.EOF`. -/
  | EOF
  /-- The value `io.ErrUnexpectedEOF`. -/
  | ErrUnexpectedEOF
  /-- The error of `os.File.Seek` for a negative resulting offset. -/
  | EINVAL
  /-- An error returned by `Marshal` or `Unmarshal`. -/
  | codec (code : Nat)
  /-- The error "persistence.file.SeekOne: invalid direct". -/
  | invalidDirect
  /-- The error "persistence.file.SeekOne: should not get here". -/
  | shouldNotGetHere
  /-- The error "persistence.file.Seek: invalid argument for whence". -/
  | invalidWhence
  /-- The error "ReadAll: invalid argument, not a ptr type". -/
  | notPtr
  /-- The error "ReadAll: invalid argument, not a ptr to slice". -/
  | notPtrToSlice
  /-- The error "ReadAll: invalid argument, not a serializable type". -/
  | notSerializable
  /-- Not a Go value: the loop bound of a model function was reached. -/
  | outOfFuel
  deriving DecidableEq, Repr

/-- The result of a call that yields a value or an error. -/
inductive Res (α : Type) where
  | ok (a : α)
  | error (e : Err)
  deriving DecidableEq, Repr

/-- How a call of `ReadAll` ends: it returns `nil`, returns an error, or panics. -/
inductive Ret where
  | nil
  | err (e : Err)
  | panic
  deriving DecidableEq, Repr

/-! ## Fixed-width integers -/

/-- The type `Size` of `file.go` is `uint32`: the conversion `Size(n)`. -/
def Size (n : Nat) : Nat := n % 2 ^ 32

/-- Conversion of an integer to `int64` (two's complement wrap-around). -/
def toInt64 (x : Int) : Int := (x + 2 ^ 63) % 2 ^ 64 - 2 ^ 63

/-- The bytes `binary.LittleEndian.PutUint32` produces for a `uint32` value:
`binary.Write(w, binary.LittleEndian, Size(n))` writes exactly these. -/
def putUint32 (v : Nat) : List Byte :=
  [UInt8.ofNat v, UInt8.ofNat (v / 2 ^ 8), UInt8.ofNat (v / 2 ^ 16), UInt8.ofNat (v / 2 ^ 24)]

/-- The value `binary.LittleEndian.Uint32` decodes from four bytes. -/
def getUint32 : List Byte → Nat
  | [b0, b1, b2, b3] => b0.toNat + b1.toNat * 2 ^ 8 + b2.toNat * 2 ^ 16 + b3.toNat * 2 ^ 24
  | _ => 0

/-! ## The underlying file and the buffered reader and writer -/

/-- The state behind a `*File` of `file.go`: the bytes of the file `fp`
refers to, the raw cursor of `fp`, and the two buffers of `rw`. -/
structure File where
  /-- The contents of the file on disk. -/
  disk : List Byte
  /-- The raw cursor of `fp`, a byte offset. -/
  pos : Nat
  /-- The reader of `rw`: bytes fetched from `fp` and not yet consumed. -/
  rbuf : List Byte
  /-- The writer of `rw`: bytes accepted and not yet written to `fp`. -/
  wbuf : List Byte
  deriving DecidableEq, Repr

/-- The size of the buffers of `bufio.NewReader` and `bufio.NewWriter`. -/
def defaultBufSize : Nat := 4096

/-- The state after `NewFile(f)` on a file just opened: cursor 0, empty buffers. -/
def NewFile (disk : List Byte) : File :=
  { disk := disk, pos := 0, rbuf := [], wbuf := [] }

/-- The bytes the reader of `rw` still delivers: its buffer, then the file from the raw cursor. -/
def File.stream (f : File) : List Byte := f.rbuf ++ f.disk.drop f.pos

/-- One call `fp.Read(p)` with `len(p) = k`: the bytes from the raw cursor,
at most `k` of them; the cursor moves past them.  No byte means `(0, io.EOF)`. -/
def fpRead (f : File) (k : Nat) : File × List Byte :=
  let bs := (f.disk.drop f.pos).take k
  ({ f with pos := f.pos + bs.length }, bs)

/-- The call `fp.Seek(offset, whence)`: the new cursor is `offset` from the
start (0), the cursor (1) or the end (2); a negative one is refused. -/
def fpSeek (f : File) (offset : Int) (whence : Int) : File × Option Err :=
  let base : Int := if whence = 0 then 0 else if whence = 1 then f.pos else f.disk.length
  if whence < 0 ∨ 2 < whence then (f, some Err.EINVAL)
  else if base + offset < 0 then (f, some Err.EINVAL)
  else ({ f with pos := (base + offset).toNat }, none)

/-- The file contents after writing `p` at byte offset `pos`: a gap between
the old end and `pos` reads as zero bytes. -/
def writeAt (d : List Byte) (pos : Nat) (p : List Byte) : List Byte :=
  d.take pos ++ List.replicate (pos - d.length) 0 ++ p ++ d.drop (pos + p.length)

/-- The call `fp.Write(p)`: the bytes go to the raw cursor, which moves past them. -/
def fpWrite (f : File) (p : List Byte) : File :=
  if p = [] then f
  else { f with disk := writeAt f.disk f.pos p, pos := f.pos + p.length }

/-- The call `fp.Truncate(size)`: the file is cut (or zero-extended) to `size` bytes. -/
def fpTruncate (f : File) (size : Nat) : File :=
  { f with disk := f.disk.take size ++ List.replicate (size - f.disk.length) 0 }

/-- One call `rw.Read(p)` with `len(p) = k > 0` (`bufio.Reader.Read`): from
the buffer when it holds bytes; with an empty buffer, a read of at least the
buffer size goes to `fp` directly, a smaller one first fills the buffer with
one `fp.Read`. -/
def bufRead (f : File) (k : Nat) : File × List Byte :=
  if f.rbuf = [] then
    if defaultBufSize ≤ k then fpRead f k
    else
      let r := fpRead f defaultBufSize
      ({ r.1 with rbuf := r.2.drop k }, r.2.take k)
  else ({ f with rbuf := f.rbuf.drop k }, f.rbuf.take k)

/-- The call `rw.Flush()` (`bufio.Writer.Flush`). -/
def bufFlush (f : File) : File :=
  if f.wbuf = [] then f else { fpWrite f f.wbuf with wbuf := [] }

/-- The call `rw.Write(p)` (`bufio.Writer.Write`): while `p` does not fit
into the free part of the buffer, an empty buffer lets `p` go to `fp`
directly, a used one is filled up and flushed; what is left is buffered. -/
def bufWrite (f : File) (p : List Byte) : File :=
  if p.length ≤ defaultBufSize - f.wbuf.length then { f with wbuf := f.wbuf ++ p }
  else if f.wbuf = [] then fpWrite f p
  else
    let n := defaultBufSize - f.wbuf.length
    let f1 := bufFlush { f with wbuf := f.wbuf ++ p.take n }
    let p1 := p.drop n
    if p1.length ≤ defaultBufSize then { f1 with wbuf := p1 } else fpWrite f1 p1

/-- The loop of `io.ReadAtLeast`: `need` bytes are still missing, `acc` are
the bytes read so far.  A `Read` that delivers nothing ends the loop with
`io.EOF` when nothing was read at all, with `io.ErrUnexpectedEOF` otherwise.
The first argument bounds the number of `Read` calls. -/
def readAtLeast (rd : File → Nat → File × List Byte) :
    Nat → File → Nat → List Byte → File × Res (List Byte)
  | _, f, 0, acc => (f, Res.ok acc)
  | 0, f, _ + 1, _ => (f, Res.error Err.outOfFuel)
  | fuel + 1, f, need + 1, acc =>
    match rd f (need + 1) with
    | (f1, []) => (f1, Res.error (if acc = [] then Err.EOF else Err.ErrUnexpectedEOF))
    | (f1, b :: bs) => readAtLeast rd fuel f1 (need + 1 - (b :: bs).length) (acc ++ b :: bs)

/-- The call `io.ReadFull(r, buf)` with `len(buf) = k`. -/
def readFull (rd : File → Nat → File × List Byte) (f : File) (k : Nat) :
    File × Res (List Byte) :=
  readAtLeast rd k f k []

/-- The call `binary.Read(r, binary.LittleEndian, &size)` for a `uint32`. -/
def binaryRead (rd : File → Nat → File × List Byte) (f : File) : File × Res Nat :=
  match readFull rd f 4 with
  | (f1, Res.ok bs) => (f1, Res.ok (getUint32 bs))
  | (f1, Res.error e) => (f1, Res.error e)

/-! ## The codec -/

/-- The interface `Serializable`: `Marshal` of an object, and `Unmarshal`,
which fills the receiver from bytes. -/
structure Serializable (α : Type) where
  Marshal : α → Res (List Byte)
  Unmarshal : α → List Byte → Res α

/-! ## file.go -/

/-- Method `File.Write`: head, body, tail into `rw`, then `Flush`. -/
def File.Write {α : Type} (c : Serializable α) (f : File) (obj : α) : File × Option Err :=
  match c.Marshal obj with
  | Res.error e => (f, some e)
  | Res.ok bytes =>
    let f1 := bufWrite f (putUint32 (Size bytes.length))
    let f2 := bufWrite f1 bytes
    let f3 := bufWrite f2 (putUint32 (Size bytes.length))
    (bufFlush f3, none)

/-- Method `File.Read`: head, body, tail from `rw`, then `Unmarshal` of the body
into `obj`. -/
def File.Read {α : Type} (c : Serializable α) (f : File) (obj : α) : File × Res α :=
  match binaryRead bufRead f with
  | (f1, Res.error e) => (f1, Res.error e)
  | (f1, Res.ok size) =>
    match readFull bufRead f1 size with
    | (f2, Res.error e) => (f2, Res.error e)
    | (f2, Res.ok bytes) =>
      match binaryRead bufRead f2 with
      | (f3, Res.error e) => (f3, Res.error e)
      | (f3, Res.ok _) => (f3, c.Unmarshal obj bytes)

/-- Method `File.seekOne`: one record forward (`direct = 1`) or backward
(`direct = -1`), on the raw file. -/
def File.seekOne (f : File) (direct : Int) : File × Option Err :=
  if direct ≠ 1 ∧ direct ≠ -1 then (f, some Err.invalidDirect)
  else
    match (if direct = -1 then fpSeek f (-4) 1 else (f, none)) with
    | (f0, some e) => (f0, some e)
    | (f0, none) =>
      match binaryRead fpRead f0 with
      | (f1, Res.error e) => (f1, some e)
      | (f1, Res.ok size) =>
        if direct = 1 then fpSeek f1 (Size (size + 4) : Nat) 1
        else if direct = -1 then fpSeek f1 (-1 * (Size (size + 8) : Nat)) 1
        else (f1, some Err.shouldNotGetHere)

/-- The loop of `File.Seek`: `n` calls of `seekOne`, stopping at the first error. -/
def File.seekLoop (direct : Int) : Nat → File → File × Option Err
  | 0, f => (f, none)
  | n + 1, f =>
    match f.seekOne direct with
    | (f1, some e) => (f1, some e)
    | (f1, none) => File.seekLoop direct n f1

/-- Method `File.Seek`: the anchor for `whence`, `|offset|` single steps, then new
buffers.  `offset` is an `int64`, `whence` an `int`. -/
def File.Seek (f : File) (offset : Int) (whence : Int) : File × Option Err :=
  match (if whence = 0 then fpSeek f 0 0
         else if whence = 1 then (f, none)
         else if whence = 2 then fpSeek f 0 2
         else (f, some Err.invalidWhence)) with
  | (f0, some e) => (f0, some e)
  | (f0, none) =>
    let direct : Int := if offset < 0 then -1 else 1
    let offset1 : Int := if offset < 0 then toInt64 (-offset) else offset
    match File.seekLoop direct offset1.toNat f0 with
    | (f1, some e) => (f1, some e)
    | (f1, none) => ({ f1 with rbuf := [], wbuf := [] }, none)

/-- Method `File.Truncate`: cut the file at the raw cursor, then new buffers. -/
def File.Truncate (f : File) : File × Option Err :=
  match fpSeek f 0 1 with
  | (f1, some e) => (f1, some e)
  | (f1, none) =>
    let f2 := fpTruncate f1 f1.pos
    ({ f2 with rbuf := [], wbuf := [] }, none)

/-! ## The part of `reflect` that `ReadAll` uses -/

/-- Go types as `reflect.Type` shows them.  A struct and a basic type are
leaves; a defined type whose own name occurs in its element type is not
represented. -/
inductive GoType where
  | struct (name : String)
  | basic (name : String)
  | ptr (elem : GoType)
  | slice (elem : GoType)
  | array (len : Nat) (elem : GoType)
  | chan (elem : GoType)
  | map (key : GoType) (elem : GoType)
  deriving DecidableEq, Repr

/-- The test `t.Kind() == reflect.Ptr`. -/
def GoType.isPtr : GoType → Bool
  | GoType.ptr _ => true
  | _ => false

/-- The test `t.Kind() == reflect.Slice`. -/
def GoType.isSlice : GoType → Bool
  | GoType.slice _ => true
  | _ => false

/-- Method `t.Elem()`: the element type of an array, channel, map, pointer or slice
type; `none` stands for the panic "reflect: Elem of invalid type". -/
def GoType.Elem : GoType → Option GoType
  | GoType.ptr e => some e
  | GoType.slice e => some e
  | GoType.array _ e => some e
  | GoType.chan e => some e
  | GoType.map _ e => some e
  | GoType.struct _ => none
  | GoType.basic _ => none

/-! ## persistence.go -/

/-- Method `Persistence.Read`. -/
def Read {α : Type} (c : Serializable α) (f : File) (obj : α) : File × Res α :=
  File.Read c f obj

/-- Method `Persistence.Write`. -/
def Write {α : Type} (c : Serializable α) (f : File) (obj : α) : File × Option Err :=
  File.Write c f obj

/-- The `for` loop of `ReadAll` (shared by `persistence.go` and `store.go`):
`read` is the `Read` in use, `zero` the object `reflect.New(t)` makes,
`sliceT` the type of `slice` and `objT` the type of `obj`.  The loop ends
with `Ret.nil` at `io.EOF`, with the error of `Read` otherwise;
`reflect.Append` panics when `obj` is not assignable to the element type. -/
def readAllLoop {α : Type} (read : File → α → File × Res α) (zero : α)
    (sliceT objT : GoType) : Nat → File → List α → File × List α × Ret
  | 0, f, slice => (f, slice, Ret.err Err.outOfFuel)
  | fuel + 1, f, slice =>
    match read f zero with
    | (f1, Res.error e) =>
      if e = Err.EOF then (f1, slice, Ret.nil) else (f1, slice, Ret.err e)
    | (f1, Res.ok v) =>
      if sliceT.Elem = some objT then
        readAllLoop read zero sliceT objT fuel f1 (slice ++ [v])
      else (f1, slice, Ret.panic)

/-- Method `Persistence.ReadAll(addr)`: `addrT` is the dynamic type of `addr`,
`dst` the slice `addr` points to, `methods t` the methods `Marshal` and
`Unmarshal` of `*t` when it has them.  The result holds the file state, the
slice `addr` points to afterwards and how the call ended. -/
def ReadAll {α : Type} (methods : GoType → Option (Serializable α)) (zero : α)
    (addrT : GoType) (f : File) (dst : List α) : File × List α × Ret :=
  if !addrT.isPtr then (f, dst, Ret.err Err.notPtr)
  else
    match addrT.Elem with
    | none => (f, dst, Ret.panic)
    | some t1 =>
      if !t1.isSlice then (f, dst, Ret.err Err.notPtrToSlice)
      else
        match t1.Elem with
        | none => (f, dst, Ret.panic)
        | some t2 =>
          match (if t2.isPtr then t2.Elem else some t2) with
          | none => (f, dst, Ret.panic)
          | some t =>
            match methods t with
            | none => (f, dst, Ret.err Err.notSerializable)
            | some c =>
              match t.Elem with
              | none => (f, dst, Ret.panic)
              | some sliceT =>
                if !sliceT.isSlice then (f, dst, Ret.panic)
                else
                  match readAllLoop (File.Read c) zero sliceT (GoType.ptr t)
                      (f.stream.length + 1) f [] with
                  | (f1, slice, Ret.nil) =>
                    if sliceT = t1 then (f1, slice, Ret.nil) else (f1, dst, Ret.panic)
                  | (f1, _, r) => (f1, dst, r)

/-- Method `Persistence.Seek`. -/
def Seek (f : File) (offset : Int) (whence : Int) : File × Option Err :=
  File.Seek f offset whence

/-- Method `Persistence.Truncate`. -/
def Truncate (f : File) : File × Option Err :=
  File.Truncate f

/-! ## The log format -/

/-- One frame: head length, body, tail length. -/
def frame (body : List Byte) : List Byte :=
  putUint32 (Size body.length) ++ body ++ putUint32 (Size body.length)

/-- The bytes of a log: its frames one after the other. -/
def encodeLog : List (List Byte) → List Byte
  | [] => []
  | b :: bs => frame b ++ encodeLog bs

/-- The byte offset of record boundary `t`: the sum of `8 + l_j` over `j < t`. -/
def boundary (bodies : List (List Byte)) (t : Nat) : Nat :=
  ((bodies.take t).map (fun b => 8 + b.length)).sum

/-- Writing the objects of a list one after the other with `Persistence.Write`,
stopping at the first error. -/
def writeAll {α : Type} (c : Serializable α) : File → List α → File × Option Err
  | f, [] => (f, none)
  | f, v :: vs =>
    match Write c f v with
    | (f1, some e) => (f1, some e)
    | (f1, none) => writeAll c f1 vs

/-- Calls of `Read` in a row, `n` of them, each into a new object, stopping
at the first error. -/
def readN {α : Type} (c : Serializable α) (zero : α) : Nat → File → File × Res (List α)
  | 0, f => (f, Res.ok [])
  | n + 1, f =>
    match File.Read c f zero with
    | (f1, Res.error e) => (f1, Res.error e)
    | (f1, Res.ok v) =>
      match readN c zero n f1 with
      | (f2, Res.error e) => (f2, Res.error e)
      | (f2, Res.ok vs) => (f2, Res.ok (v :: vs))

/-- A body of 2^32 - 1 zero bytes, the longest whose length `Size` holds. -/
def bigBody : List Byte := List.replicate 4294967295 0

/-- The type `*[]*example.PreAccept` of the destination of `ReadAll` in the tests. -/
def preAcceptDst : GoType :=
  GoType.ptr (GoType.slice (GoType.ptr (GoType.struct "example.PreAccept")))

/-- The method table of the tests: `*example.PreAccept` has `Marshal` and
`Unmarshal`, given by `c`, and no other type has them. -/
def preAcceptMethods {α : Type} (c : Serializable α) : GoType → Option (Serializable α) :=
  fun t => if t = GoType.struct "example.PreAccept" then some c else none

/-- The codec of raw byte strings: `Marshal` and `Unmarshal` copy the bytes. -/
def rawCodec : Serializable (List Byte) :=
  { Marshal := fun v => Res.ok v, Unmarshal := fun _ b => Res.ok b }

/-! ## store.go -/

/-- Method `Store.Write`: head and body into `rw`, then `Flush`.  The state
of a `*Store` is that of its `rw` over the stream it was made from. -/
def Store.Write {α : Type} (c : Serializable α) (s : File) (obj : α) : File × Option Err :=
  match c.Marshal obj with
  | Res.error e => (s, some e)
  | Res.ok bytes =>
    let s1 := bufWrite s (putUint32 (Size bytes.length))
    let s2 := bufWrite s1 bytes
    (bufFlush s2, none)

/-- Method `Store.Read`: head and body from `rw`, then `Unmarshal` of the body
into `obj`. -/
def Store.Read {α : Type} (c : Serializable α) (s : File) (obj : α) : File × Res α :=
  match binaryRead bufRead s with
  | (s1, Res.error e) => (s1, Res.error e)
  | (s1, Res.ok size) =>
    match readFull bufRead s1 size with
    | (s2, Res.error e) => (s2, Res.error e)
    | (s2, Res.ok bytes) => (s2, c.Unmarshal obj bytes)

/-- Method `Store.ReadAll(addr)`, with the arguments of `ReadAll` above: the
slice is made with the slice type `addr` points to, before the step to the
element type. -/
def Store.ReadAll {α : Type} (methods : GoType → Option (Serializable α)) (zero : α)
    (addrT : GoType) (s : File) (dst : List α) : File × List α × Ret :=
  if !addrT.isPtr then (s, dst, Ret.err Err.notPtr)
  else
    match addrT.Elem with
    | none => (s, dst, Ret.panic)
    | some t1 =>
      if !t1.isSlice then (s, dst, Ret.err Err.notPtrToSlice)
      else
        match t1.Elem with
        | none => (s, dst, Ret.panic)
        | some t2 =>
          match (if t2.isPtr then t2.Elem else some t2) with
          | none => (s, dst, Ret.panic)
          | some t =>
            match methods t with
            | none => (s, dst, Ret.err Err.notSerializable)
            | some c =>
              match readAllLoop (Store.Read c) zero t1 (GoType.ptr t)
                  (s.stream.length + 1) s [] with
              | (s1, slice, Ret.nil) => (s1, slice, Ret.nil)
              | (s1, _, r) => (s1, dst, r)

/-- One record of the simple store: head length, body. -/
def storeFrame (body : List Byte) : List Byte :=
  putUint32 (Size body.length) ++ body

/-- The bytes of a stream of the simple store. -/
def encodeStore : List (List Byte) → List Byte
  | [] => []
  | b :: bs => storeFrame b ++ encodeStore bs

/-- Writing the objects of a list one after the other with `Store.Write`,
stopping at the first error. -/
def Store.writeAll {α : Type} (c : Serializable α) : File → List α → File × Option Err
  | s, [] => (s, none)
  | s, v :: vs =>
    match Store.Write c s v with
    | (s1, some e) => (s1, some e)
    | (s1, none) => Store.writeAll c s1 vs

/-- The loop of `TestSeekAndWrite`: for the objects of a list, numbered from
`i` on, `Seek(0, 0)`, `Seek(i, 1)` and `Write`, stopping at the first error. -/
def rewriteAll {α : Type} (c : Serializable α) : Nat → File → List α → File × Option Err
  | _, f, [] => (f, none)
  | i, f, w :: ws =>
    match Seek f 0 0 with
    | (f1, some e) => (f1, some e)
    | (f1, none) =>
      match Seek f1 (i : Int) 1 with
      | (f2, some e) => (f2, some e)
      | (f2, none) =>
        match Write c f2 w with
        | (f3, some e) => (f3, some e)
        | (f3, none) => rewriteAll c (i + 1) f3 ws

/-- A body of 2^32 zero bytes, the shortest whose length `Size` does not hold. -/
def hugeBody : List Byte := List.replicate 4294967296 0

/-- A codec whose `Marshal` copies the bytes and whose `Unmarshal` rejects
every byte string. -/
def rejectCodec : Serializable (List Byte) :=
  { Marshal := fun v => Res.ok v, Unmarshal := fun _ _ => Res.error (Err.codec 2) }

/-- A codec that rejects every value and every byte string. -/
def failCodec : Serializable (List Byte) :=
  { Marshal := fun _ => Res.error (Err.codec 1), Unmarshal := fun _ _ => Res.error (Err.codec 2) }

/-! ## Bytes and lists -/

set_option maxRecDepth 100000

theorem putUint32_length (v : Nat) : (putUint32 v).length = 4 := rfl

theorem toNat_ofNat_byte (n : Nat) : (UInt8.ofNat n).toNat = n % 256 := by
  simp [UInt8.toNat, UInt8.ofNat, Fin.ofNat]

theorem getUint32_putUint32 (v : Nat) (h : v < 2 ^ 32) : getUint32 (putUint32 v) = v := by
  simp only [putUint32, getUint32, toNat_ofNat_byte]
  omega

theorem take_append_drop_length {α : Type} (k : Nat) (l : List α) :
    l.take k ++ l.drop (l.take k).length = l := by
  rw [List.length_take]
  rcases Nat.le_total k l.length with h | h
  · rw [Nat.min_eq_left h, List.take_append_drop]
  · rw [Nat.min_eq_right h, List.take_of_length_le h, List.drop_length, List.append_nil]

theorem drop_add_drop {α : Type} (m n : Nat) (l : List α) :
    l.drop (m + n) = (l.drop m).drop n := by
  rw [List.drop_drop, Nat.add_comm]

/-- One `rw.Read` hands out a piece from the front of the stream, not empty
unless the stream is, and leaves the rest. -/
theorem bufRead_spec (f : File) (k : Nat) (hk : 0 < k) :
    (bufRead f k).2 ++ (bufRead f k).1.stream = f.stream ∧
    (bufRead f k).2.length ≤ k ∧
    (f.stream ≠ [] → (bufRead f k).2 ≠ []) ∧
    (bufRead f k).1.disk = f.disk ∧ (bufRead f k).1.wbuf = f.wbuf := by
  unfold bufRead
  by_cases hr : f.rbuf = []
  · by_cases hk2 : defaultBufSize ≤ k
    · simp only [hr, hk2, if_true, fpRead, File.stream, List.nil_append, drop_add_drop]
      refine ⟨take_append_drop_length _ _, ?_, ?_, trivial, trivial⟩
      · rw [List.length_take]; exact Nat.min_le_left _ _
      intro h
      cases hd : List.drop f.pos f.disk with
      | nil => exact absurd hd h
      | cons a l =>
        obtain ⟨k', rfl⟩ : ∃ k', k = k' + 1 := ⟨k - 1, by omega⟩
        simp
    · simp only [hr, hk2, if_true, if_false, fpRead, File.stream, List.nil_append, drop_add_drop]
      refine ⟨?_, ?_, ?_, trivial, trivial⟩
      · rw [← List.append_assoc, List.take_append_drop, take_append_drop_length]
      · rw [List.length_take]; exact Nat.min_le_left _ _
      · intro h
        cases hd : List.drop f.pos f.disk with
        | nil => exact absurd hd h
        | cons a l =>
          obtain ⟨k', rfl⟩ : ∃ k', k = k' + 1 := ⟨k - 1, by omega⟩
          simp [defaultBufSize]
  · simp only [hr, if_false, File.stream]
    refine ⟨?_, ?_, ?_, trivial, trivial⟩
    · rw [← List.append_assoc, List.take_append_drop]
    · rw [List.length_take]; exact Nat.min_le_left _ _
    · intro _
      cases hd : f.rbuf with
      | nil => exact absurd hd hr
      | cons a l =>
        obtain ⟨k', rfl⟩ : ∃ k', k = k' + 1 := ⟨k - 1, by omega⟩
        simp


/-- With enough bytes in the stream, the loop of `io.ReadAtLeast` over `rw`
delivers exactly the next `need` bytes. -/
theorem readAtLeast_buf_ok (fuel : Nat) : ∀ (need : Nat) (f : File) (acc : List Byte),
    need ≤ fuel → need ≤ f.stream.length →
    ∃ f1, readAtLeast bufRead fuel f need acc = (f1, Res.ok (acc ++ f.stream.take need)) ∧
      f1.stream = f.stream.drop need ∧ f1.disk = f.disk ∧ f1.wbuf = f.wbuf := by
  induction fuel with
  | zero =>
    intro need f acc h1 _
    obtain rfl : need = 0 := by omega
    exact ⟨f, by simp [readAtLeast], by simp, rfl, rfl⟩
  | succ m ih =>
    intro need f acc h1 h2
    cases need with
    | zero => exact ⟨f, by simp [readAtLeast], by simp, rfl, rfl⟩
    | succ n =>
      obtain ⟨hs, hl, hne, hd, hw⟩ := bufRead_spec f (n + 1) (Nat.succ_pos n)
      have hSne : f.stream ≠ [] := by
        intro h0; rw [h0] at h2; simp at h2
      cases hb : (bufRead f (n + 1)).2 with
      | nil => exact absurd hb (hne hSne)
      | cons b bs =>
        rw [hb] at hs hl
        have hlen : f.stream.length = (b :: bs).length + (bufRead f (n + 1)).1.stream.length := by
          rw [← hs, List.length_append]
        obtain ⟨f1, e1, e2, e3, e4⟩ := ih (n + 1 - (b :: bs).length) (bufRead f (n + 1)).1
          (acc ++ b :: bs) (by simp at hl ⊢; omega) (by omega)
        refine ⟨f1, ?_, ?_, e3.trans hd, e4.trans hw⟩
        · have hp : bufRead f (n + 1) = ((bufRead f (n + 1)).1, b :: bs) := by
            rw [← hb]
          rw [readAtLeast, hp]
          simp only []
          rw [e1, ← hs, List.take_append_eq_append_take, List.take_of_length_le hl,
            List.append_assoc]
        · rw [e2, ← hs, List.drop_append_eq_append_drop, List.drop_of_length_le hl,
            List.nil_append]

/-- When the stream is shorter than `need`, the loop of `io.ReadAtLeast` over
`rw` fails: with `io.EOF` when no byte was read at all, with
`io.ErrUnexpectedEOF` otherwise. -/
theorem readAtLeast_buf_short (fuel : Nat) : ∀ (need : Nat) (f : File) (acc : List Byte),
    need ≤ fuel → f.stream.length < need →
    (readAtLeast bufRead fuel f need acc).2 =
      Res.error (if acc ++ f.stream = [] then Err.EOF else Err.ErrUnexpectedEOF) := by
  induction fuel with
  | zero => intro need f acc h1 h2; omega
  | succ m ih =>
    intro need f acc h1 h2
    cases need with
    | zero => omega
    | succ n =>
      obtain ⟨hs, hl, hne, -, -⟩ := bufRead_spec f (n + 1) (Nat.succ_pos n)
      cases hb : (bufRead f (n + 1)).2 with
      | nil =>
        have hp : bufRead f (n + 1) = ((bufRead f (n + 1)).1, []) := by rw [← hb]
        have hS : f.stream = [] := by
          by_contra h0; exact hne h0 hb
        rw [readAtLeast, hp]
        simp [hS]
      | cons b bs =>
        rw [hb] at hs hl
        have hlen : f.stream.length = (b :: bs).length + (bufRead f (n + 1)).1.stream.length := by
          rw [← hs, List.length_append]
        have hp : bufRead f (n + 1) = ((bufRead f (n + 1)).1, b :: bs) := by rw [← hb]
        have := ih (n + 1 - (b :: bs).length) (bufRead f (n + 1)).1
          (acc ++ b :: bs) (by simp at hl ⊢; omega) (by omega)
        rw [readAtLeast, hp]
        simp only []
        rw [this, ← hs]
        simp

theorem readFull_buf_ok (f : File) (k : Nat) (h : k ≤ f.stream.length) :
    ∃ f1, readFull bufRead f k = (f1, Res.ok (f.stream.take k)) ∧
      f1.stream = f.stream.drop k ∧ f1.disk = f.disk ∧ f1.wbuf = f.wbuf := by
  simpa [readFull] using readAtLeast_buf_ok k k f [] (Nat.le_refl k) h

theorem readFull_buf_short (f : File) (k : Nat) (h : f.stream.length < k) :
    (readFull bufRead f k).2 =
      Res.error (if f.stream = [] then Err.EOF else Err.ErrUnexpectedEOF) := by
  simpa [readFull] using readAtLeast_buf_short k k f [] (Nat.le_refl k) h

theorem binaryRead_buf_ok (f : File) (h : 4 ≤ f.stream.length) :
    ∃ f1, binaryRead bufRead f = (f1, Res.ok (getUint32 (f.stream.take 4))) ∧
      f1.stream = f.stream.drop 4 ∧ f1.disk = f.disk ∧ f1.wbuf = f.wbuf := by
  obtain ⟨f1, e1, e2, e3, e4⟩ := readFull_buf_ok f 4 h
  exact ⟨f1, by simp [binaryRead, e1], e2, e3, e4⟩

theorem binaryRead_buf_short (f : File) (h : f.stream.length < 4) :
    (binaryRead bufRead f).2 =
      Res.error (if f.stream = [] then Err.EOF else Err.ErrUnexpectedEOF) := by
  have h1 := readFull_buf_short f 4 h
  unfold binaryRead
  cases hr : readFull bufRead f 4 with
  | mk f1 r =>
    rw [hr] at h1
    simp only at h1
    subst h1
    rfl

/-- A `File.Read` on a stream that starts with a four-byte head announcing the
length of `body`, then `body`, then any four bytes: the body goes to
`Unmarshal` and the stream continues right after the four tail bytes. -/
theorem File.Read_frame {α : Type} (c : Serializable α) (f : File) (obj : α)
    (h body t rest : List Byte) (hh : h.length = 4) (hb : getUint32 h = body.length)
    (ht : t.length = 4) (hs : f.stream = h ++ body ++ t ++ rest) :
    ∃ f1, File.Read c f obj = (f1, c.Unmarshal obj body) ∧
      f1.stream = rest ∧ f1.disk = f.disk ∧ f1.wbuf = f.wbuf := by
  obtain ⟨f1, e1, s1, d1, w1⟩ := binaryRead_buf_ok f (by simp [hs, hh])
  have hs1 : f1.stream = body ++ t ++ rest := by
    rw [s1, hs, List.append_assoc, List.append_assoc, List.drop_left' hh, List.append_assoc]
  have hk : getUint32 (f.stream.take 4) = body.length := by
    rw [hs, List.append_assoc, List.append_assoc, List.take_left' hh, hb]
  obtain ⟨f2, e2, s2, d2, w2⟩ := readFull_buf_ok f1 body.length (by simp [hs1])
  have hs2 : f2.stream = t ++ rest := by
    rw [s2, hs1, List.append_assoc, List.drop_left]
  have hbody : f1.stream.take body.length = body := by
    rw [hs1, List.append_assoc, List.take_left]
  obtain ⟨f3, e3, s3, d3, w3⟩ := binaryRead_buf_ok f2 (by simp [hs2, ht])
  refine ⟨f3, ?_, ?_, d3.trans (d2.trans d1), w3.trans (w2.trans w1)⟩
  · simp only [File.Read, e1, hk, e2, e3, hbody]
  · rw [s3, hs2, List.drop_left' ht]

/-! ## Writing -/

theorem writeAt_append (d : List Byte) (pos : Nat) (a b : List Byte) :
    writeAt (writeAt d pos a) (pos + a.length) b = writeAt d pos (a ++ b) := by
  have hP : (d.take pos ++ List.replicate (pos - d.length) (0 : Byte)).length = pos := by
    simp only [List.length_append, List.length_take, List.length_replicate]
    omega
  generalize hPd : d.take pos ++ List.replicate (pos - d.length) (0 : Byte) = P at hP
  have e1 : writeAt d pos a = (P ++ a) ++ d.drop (pos + a.length) := by
    simp only [writeAt, hPd]
  have hPa : (P ++ a).length = pos + a.length := by simp [hP]
  rw [e1]
  simp only [writeAt, hPd]
  rw [List.take_left' hPa]
  have h0 : pos + a.length - (P ++ a ++ List.drop (pos + a.length) d).length = 0 := by
    simp only [List.length_append, hP]; omega
  rw [h0, List.replicate_zero, List.append_nil, drop_add_drop (pos + a.length) b.length,
    List.drop_left' hPa, List.length_append, ← drop_add_drop]
  simp only [List.append_assoc, Nat.add_assoc]

theorem fpWrite_append (f : File) (a b : List Byte) :
    fpWrite (fpWrite f a) b = fpWrite f (a ++ b) := by
  by_cases ha : a = []
  · simp [fpWrite, ha]
  · by_cases hb : b = []
    · simp [fpWrite, ha, hb]
    · simp [fpWrite, ha, hb, writeAt_append, Nat.add_assoc]

theorem fpWrite_wbuf (f : File) (p : List Byte) : (fpWrite f p).wbuf = f.wbuf := by
  unfold fpWrite; split <;> rfl

theorem bufFlush_eq (f : File) : bufFlush f = { fpWrite f f.wbuf with wbuf := [] } := by
  unfold bufFlush
  by_cases h : f.wbuf = []
  · cases f; simp_all [fpWrite]
  · simp [h]

theorem bufFlush_of_empty (f : File) (h : f.wbuf = []) : bufFlush f = f := by
  simp [bufFlush, h]

/-- Flushing after `rw.Write(p)` has the effect of flushing first and then
writing `p` to `fp`: the buffering of the writer cannot be observed. -/
theorem bufFlush_bufWrite (f : File) (p : List Byte) :
    bufFlush (bufWrite f p) = fpWrite (bufFlush f) p := by
  have key : ∀ (g : File) (q : List Byte),
      ({ fpWrite g q with wbuf := [] } : File) = fpWrite { g with wbuf := [] } q := by
    intro g q; unfold fpWrite; split <;> rfl
  unfold bufWrite
  by_cases h1 : p.length ≤ defaultBufSize - f.wbuf.length
  · simp only [h1, if_true]
    rw [bufFlush_eq, bufFlush_eq, key, key, fpWrite_append]
  · by_cases h2 : f.wbuf = []
    · rw [if_neg h1, if_pos h2, bufFlush_of_empty f h2,
        bufFlush_of_empty _ (by rw [fpWrite_wbuf]; exact h2)]
    · rw [if_neg h1, if_neg h2]
      have e : ∀ g : File, g.wbuf = [] → ∀ q, bufFlush (if q.length ≤ defaultBufSize then
          { g with wbuf := q } else fpWrite g q) = fpWrite g q := by
        intro g hg q
        split
        · rw [bufFlush_eq, key]
          cases g; simp_all
        · exact bufFlush_of_empty _ (by rw [fpWrite_wbuf]; exact hg)
      simp only []
      rw [e _ (by rw [bufFlush_eq])]
      simp only [bufFlush_eq, key, fpWrite_append, List.append_assoc, List.take_append_drop]

/-- A `File.Write` on a state with an empty write buffer puts the frame of the
marshalled bytes at the raw cursor and returns nil. -/
theorem File.Write_eq {α : Type} (c : Serializable α) (f : File) (obj : α) (b : List Byte)
    (hm : c.Marshal obj = Res.ok b) (hw : f.wbuf = []) :
    File.Write c f obj = (fpWrite f (frame b), none) := by
  simp only [File.Write, hm, bufFlush_bufWrite, bufFlush_of_empty f hw, fpWrite_append, frame,
    List.append_assoc]

theorem frame_length (b : List Byte) : (frame b).length = 8 + b.length := by
  simp [frame, putUint32_length]; omega

theorem frame_ne_nil (b : List Byte) : frame b ≠ [] := by
  intro h
  have := frame_length b
  rw [h] at this
  simp at this
  omega

theorem Size_of_lt (n : Nat) (h : n < 2 ^ 32) : Size n = n := Nat.mod_eq_of_lt h

theorem fpSeek_cur_zero (f : File) : fpSeek f 0 1 = (f, none) := by
  simp [fpSeek]

theorem take_writeAt (d : List Byte) (pos : Nat) (p : List Byte) :
    (writeAt d pos p).take pos = d.take pos ++ List.replicate (pos - d.length) 0 := by
  have hP : (d.take pos ++ List.replicate (pos - d.length) (0 : Byte)).length = pos := by
    simp only [List.length_append, List.length_take, List.length_replicate]
    omega
  rw [writeAt, List.append_assoc, List.take_left' hP]

theorem drop_writeAt (d : List Byte) (pos : Nat) (p : List Byte) :
    (writeAt d pos p).drop pos = p ++ d.drop (pos + p.length) := by
  have hP : (d.take pos ++ List.replicate (pos - d.length) (0 : Byte)).length = pos := by
    simp only [List.length_append, List.length_take, List.length_replicate]
    omega
  rw [writeAt, List.append_assoc, List.drop_left' hP]

/-- C1. `File.Write` of an object whose `Marshal` gives `b`, shorter than
2^32 bytes, on a state with raw cursor `p` and an empty write buffer:
it returns nil, the file holds at offsets `p .. p+8+len(b)` the four-byte
little-endian length, then `b`, then the same four bytes again, the bytes
before `p` are the old ones (a gap up to `p` reads as zeros), and the raw
cursor ends at `p + 8 + len(b)`. -/
theorem File.Write_layout {α : Type} (c : Serializable α) (f : File) (obj : α) (b : List Byte)
    (hm : c.Marshal obj = Res.ok b) (hlen : b.length < 2 ^ 32) (hw : f.wbuf = []) :
    (File.Write c f obj).2 = none ∧
    ((File.Write c f obj).1.disk.drop f.pos).take (8 + b.length) =
      putUint32 b.length ++ b ++ putUint32 b.length ∧
    (File.Write c f obj).1.disk.take f.pos =
      f.disk.take f.pos ++ List.replicate (f.pos - f.disk.length) 0 ∧
    (File.Write c f obj).1.pos = f.pos + 8 + b.length := by
  rw [File.Write_eq c f obj b hm hw]
  have hfr : frame b = putUint32 b.length ++ b ++ putUint32 b.length := by
    rw [frame, Size_of_lt _ hlen]
  simp only [fpWrite, frame_ne_nil, if_false]
  refine ⟨trivial, ?_, take_writeAt _ _ _, ?_⟩
  · rw [drop_writeAt, ← frame_length, List.take_left, hfr]
  · rw [frame_length]; omega

theorem File.Write_layout_witness :
    (File.Write rawCodec (NewFile [9, 9]) [1, 2, 3]).2 = none ∧
    ((File.Write rawCodec (NewFile [9, 9]) [1, 2, 3]).1.disk.drop
      (NewFile [9, 9]).pos).take (8 + [1, 2, 3].length) =
      putUint32 [1, 2, 3].length ++ [1, 2, 3] ++ putUint32 [1, 2, 3].length ∧
    (File.Write rawCodec (NewFile [9, 9]) [1, 2, 3]).1.disk.take (NewFile [9, 9]).pos =
      (NewFile [9, 9]).disk.take (NewFile [9, 9]).pos ++
        List.replicate ((NewFile [9, 9]).pos - (NewFile [9, 9]).disk.length) 0 ∧
    (File.Write rawCodec (NewFile [9, 9]) [1, 2, 3]).1.pos =
      (NewFile [9, 9]).pos + 8 + [1, 2, 3].length :=
  File.Write_layout rawCodec (NewFile [9, 9]) [1, 2, 3] [1, 2, 3] rfl (by decide) rfl

/-- C7. `File.Truncate` on a state whose raw cursor `p` is at most the file
length returns nil; the file is then exactly the first `p` bytes of the old
file, the raw cursor is still `p`, and the buffers of `rw` are empty. -/
theorem File.Truncate_at_cursor (f : File) (h : f.pos ≤ f.disk.length) :
    File.Truncate f =
      ({ disk := f.disk.take f.pos, pos := f.pos, rbuf := [], wbuf := [] }, none) := by
  simp [File.Truncate, fpSeek_cur_zero, fpTruncate, Nat.sub_eq_zero_of_le h]

theorem File.Truncate_at_cursor_witness :
    File.Truncate { disk := [1, 2, 3, 4, 5], pos := 2, rbuf := [3, 4], wbuf := [7] } =
      ({ disk := [1, 2], pos := 2, rbuf := [], wbuf := [] }, none) :=
  File.Truncate_at_cursor { disk := [1, 2, 3, 4, 5], pos := 2, rbuf := [3, 4], wbuf := [7] }
    (by decide)

/-! ## Reading from the raw file, single steps -/

theorem readFull_fp_ok (f : File) (k : Nat) (h : f.pos + k ≤ f.disk.length) :
    readFull fpRead f k =
      ({ f with pos := f.pos + k }, Res.ok ((f.disk.drop f.pos).take k)) := by
  cases k with
  | zero => simp [readFull, readAtLeast]
  | succ n =>
    have hl : ((f.disk.drop f.pos).take (n + 1)).length = n + 1 := by
      rw [List.length_take, List.length_drop]; omega
    cases hb : (f.disk.drop f.pos).take (n + 1) with
    | nil => rw [hb] at hl; simp at hl
    | cons b bs =>
      rw [hb] at hl
      rw [readFull, readAtLeast]
      simp only [fpRead, hb, hl, Nat.sub_self, List.nil_append]
      rw [readAtLeast]

theorem binaryRead_fp_ok (f : File) (h : f.pos + 4 ≤ f.disk.length) :
    binaryRead fpRead f =
      ({ f with pos := f.pos + 4 }, Res.ok (getUint32 ((f.disk.drop f.pos).take 4))) := by
  simp [binaryRead, readFull_fp_ok f 4 h]

theorem binaryRead_fp_eof (f : File) (h : f.disk.length ≤ f.pos) :
    binaryRead fpRead f = (f, Res.error Err.EOF) := by
  simp [binaryRead, readFull, readAtLeast, fpRead, List.drop_of_length_le h]

theorem fpSeek_cur_nonneg (f : File) (n : Nat) :
    fpSeek f (n : Int) 1 = ({ f with pos := f.pos + n }, none) := by
  have h : ¬ ((f.pos : Int) + (n : Int) < 0) := by omega
  simp only [fpSeek]
  simp [h]
  omega

theorem fpSeek_cur_back (f : File) (n : Nat) (h : n ≤ f.pos) :
    fpSeek f (-(n : Int)) 1 = ({ f with pos := f.pos - n }, none) := by
  have h1 : ¬ ((f.pos : Int) + -(n : Int) < 0) := by omega
  simp only [fpSeek]
  simp [h1]
  omega

theorem fpSeek_cur_back_fail (f : File) (n : Nat) (h : f.pos < n) :
    fpSeek f (-(n : Int)) 1 = (f, some Err.EINVAL) := by
  have h1 : (f.pos : Int) + -(n : Int) < 0 := by omega
  simp only [fpSeek]
  simp [h1]

/-- A forward step at the head of a frame with body `b`: the raw cursor
moves by four bytes and then by `Size(len(b) + 4)`. -/
theorem File.seekOne_forward (f : File) (pre b post : List Byte)
    (hd : f.disk = pre ++ frame b ++ post) (hp : f.pos = pre.length)
    (hb : b.length < 2 ^ 32) :
    f.seekOne 1 = ({ f with pos := pre.length + 4 + Size (b.length + 4) }, none) := by
  have h4 : f.pos + 4 ≤ f.disk.length := by
    rw [hd, hp]; simp [frame_length]; omega
  have hv : getUint32 ((f.disk.drop f.pos).take 4) = b.length := by
    rw [hd, hp, List.append_assoc, List.drop_left, frame, List.append_assoc, List.append_assoc,
      List.take_left' (putUint32_length _), Size_of_lt _ hb, getUint32_putUint32 _ hb]
  have hb2 := binaryRead_fp_ok f h4
  rw [hv] at hb2
  unfold File.seekOne
  rw [if_neg (by decide), if_neg (by decide)]
  simp only []
  rw [hb2]
  simp only [if_true, fpSeek_cur_nonneg, hp]

/-- A backward step right after a frame with body `b`: the raw cursor
moves back by four bytes, forward over the tail, and back by
`Size(len(b) + 8)`. -/
theorem File.seekOne_backward (f : File) (pre b post : List Byte)
    (hd : f.disk = pre ++ frame b ++ post) (hp : f.pos = pre.length + 8 + b.length)
    (hb : b.length < 2 ^ 32) :
    f.seekOne (-1) =
      ({ f with pos := pre.length + 8 + b.length - Size (b.length + 8) }, none) := by
  have e0 : fpSeek f (-4) 1 = ({ f with pos := f.pos - 4 }, none) :=
    fpSeek_cur_back f 4 (by omega)
  have hpl : (pre ++ putUint32 (Size b.length) ++ b).length = f.pos - 4 := by
    simp [putUint32_length, hp]; omega
  have h4 : f.pos - 4 + 4 ≤ f.disk.length := by
    rw [hd, hp]; simp [frame_length]; omega
  have hv : getUint32 ((f.disk.drop (f.pos - 4)).take 4) = b.length := by
    have : f.disk = (pre ++ putUint32 (Size b.length) ++ b) ++
        (putUint32 (Size b.length) ++ post) := by
      rw [hd, frame]; simp only [List.append_assoc]
    rw [this, List.drop_left' hpl, List.take_left' (putUint32_length _), Size_of_lt _ hb,
      getUint32_putUint32 _ hb]
  have hle : Size (b.length + 8) ≤ f.pos := by
    have := Nat.mod_le (b.length + 8) (2 ^ 32)
    unfold Size; omega
  have e2 := fpSeek_cur_back { f with pos := f.pos - 4 + 4 } (Size (b.length + 8))
    (by simp only []; omega)
  have hneg : (-1 : Int) * ((Size (b.length + 8) : Nat) : Int) =
      -((Size (b.length + 8) : Nat) : Int) := by omega
  have hb2 := binaryRead_fp_ok { f with pos := f.pos - 4 } h4
  simp only [] at hb2
  rw [hv] at hb2
  unfold File.seekOne
  rw [if_neg (by decide), if_pos rfl, e0]
  simp only []
  rw [hb2]
  simp only [if_true]
  rw [if_neg (by decide), hneg, e2]
  have e3 : f.pos - 4 + 4 - Size (b.length + 8) =
      pre.length + 8 + b.length - Size (b.length + 8) := by omega
  simp only [e3]

/-! ## Logs and record boundaries -/

theorem encodeLog_append (xs ys : List (List Byte)) :
    encodeLog (xs ++ ys) = encodeLog xs ++ encodeLog ys := by
  induction xs with
  | nil => rfl
  | cons b xs ih => simp [encodeLog, ih]

theorem boundary_zero (bs : List (List Byte)) : boundary bs 0 = 0 := by
  simp [boundary]

theorem boundary_left (xs ys : List (List Byte)) :
    boundary (xs ++ ys) xs.length = (encodeLog xs).length := by
  induction xs with
  | nil => simp [boundary, encodeLog]
  | cons b xs ih =>
    simp only [boundary] at ih ⊢
    simp only [List.cons_append, List.length_cons, List.take_succ_cons, List.map_cons,
      List.sum_cons, encodeLog, List.length_append, frame_length, ih]

theorem boundary_left_succ (xs ys : List (List Byte)) (b : List Byte) :
    boundary (xs ++ b :: ys) (xs.length + 1) = (encodeLog xs).length + 8 + b.length := by
  have h := boundary_left (xs ++ [b]) ys
  simp only [List.append_assoc, List.singleton_append, List.length_append, List.length_singleton,
    encodeLog_append, encodeLog, frame_length, List.append_nil] at h
  rw [h]; omega

theorem boundary_length (bs : List (List Byte)) :
    boundary bs bs.length = (encodeLog bs).length := by
  simpa using boundary_left bs []

theorem split_at (bs : List (List Byte)) (t : Nat) (h : t < bs.length) :
    ∃ xs b ys, bs = xs ++ b :: ys ∧ xs.length = t :=
  ⟨bs.take t, bs[t], bs.drop (t + 1), by
    rw [← List.drop_eq_getElem_cons h, List.take_append_drop], by
    rw [List.length_take]; omega⟩

theorem boundary_mono (bs : List (List Byte)) (t : Nat) (h : t ≤ bs.length) :
    boundary bs t ≤ (encodeLog bs).length := by
  rcases Nat.eq_or_lt_of_le h with h | h
  · rw [h, boundary_length]
  · obtain ⟨xs, b, ys, rfl, rfl⟩ := split_at bs t h
    rw [boundary_left, encodeLog_append]; simp

/-- Forward steps on a log whose bodies are shorter than 2^32 - 8 bytes. -/
theorem File.seekLoop_forward (bs : List (List Byte))
    (hs : ∀ b ∈ bs, b.length + 8 < 2 ^ 32) : ∀ (k t : Nat) (f : File),
    f.disk = encodeLog bs → f.pos = boundary bs t → t + k ≤ bs.length →
    File.seekLoop 1 k f = ({ f with pos := boundary bs (t + k) }, none) := by
  intro k
  induction k with
  | zero => intro t f _ hp _; simp [File.seekLoop, ← hp]
  | succ k ih =>
    intro t f hd hp hk
    obtain ⟨xs, b, ys, rfl, rfl⟩ := split_at bs t (by omega)
    have hb := hs b (by simp)
    have h1 := File.seekOne_forward f (encodeLog xs) b (encodeLog ys)
      (by rw [hd, encodeLog_append, encodeLog, List.append_assoc])
      (by rw [hp, boundary_left]) (by omega)
    rw [Size_of_lt _ (by omega)] at h1
    have h2 := ih (xs.length + 1) { f with pos := (encodeLog xs).length + 4 + (b.length + 4) }
      hd (by rw [boundary_left_succ]; simp only []; omega) (by omega)
    rw [File.seekLoop, h1]
    simp only []
    rw [h2]
    simp only [Nat.add_assoc, Nat.add_comm 1 k]

/-- Backward steps on a log whose bodies are shorter than 2^32 - 8 bytes. -/
theorem File.seekLoop_backward (bs : List (List Byte))
    (hs : ∀ b ∈ bs, b.length + 8 < 2 ^ 32) : ∀ (k t : Nat) (f : File),
    f.disk = encodeLog bs → f.pos = boundary bs t → k ≤ t → t ≤ bs.length →
    File.seekLoop (-1) k f = ({ f with pos := boundary bs (t - k) }, none) := by
  intro k
  induction k with
  | zero => intro t f _ hp _ _; simp [File.seekLoop, ← hp]
  | succ k ih =>
    intro t f hd hp hk ht
    obtain ⟨xs, b, ys, rfl, hx⟩ := split_at bs (t - 1) (by omega)
    have ht1 : t = xs.length + 1 := by omega
    subst ht1
    have hb := hs b (by simp)
    have h1 := File.seekOne_backward f (encodeLog xs) b (encodeLog ys)
      (by rw [hd, encodeLog_append, encodeLog, List.append_assoc])
      (by rw [hp, boundary_left_succ]) (by omega)
    rw [Size_of_lt _ (by omega)] at h1
    have h2 := ih xs.length { f with pos := (encodeLog xs).length + 8 + b.length - (b.length + 8) }
      hd (by rw [boundary_left]; simp only []; omega) (by omega) (by simp)
    rw [File.seekLoop, h1]
    simp only []
    rw [h2]
    have : xs.length + 1 - (k + 1) = xs.length - k := by omega
    simp only [this]

/-- A forward step at the end of the file fails with `io.EOF` and leaves the state. -/
theorem File.seekOne_at_end (f : File) (h : f.disk.length ≤ f.pos) :
    f.seekOne 1 = (f, some Err.EOF) := by
  unfold File.seekOne
  rw [if_neg (by decide), if_neg (by decide)]
  simp only []
  rw [binaryRead_fp_eof f h]

/-- A backward step less than four bytes into the file fails and leaves the state. -/
theorem File.seekOne_at_start (f : File) (h : f.pos < 4) :
    f.seekOne (-1) = (f, some Err.EINVAL) := by
  unfold File.seekOne
  have e0 : fpSeek f (-4) 1 = (f, some Err.EINVAL) := fpSeek_cur_back_fail f 4 h
  rw [if_neg (by decide), if_pos rfl, e0]

/-- More forward steps than records remain: the loop stops with `io.EOF`,
the raw cursor at the end of the file. -/
theorem File.seekLoop_forward_fail (bs : List (List Byte))
    (hs : ∀ b ∈ bs, b.length + 8 < 2 ^ 32) (k t : Nat) (f : File)
    (hd : f.disk = encodeLog bs) (hp : f.pos = boundary bs t) (ht : t ≤ bs.length)
    (hk : bs.length < t + k) :
    File.seekLoop 1 k f = ({ f with pos := (encodeLog bs).length }, some Err.EOF) := by
  have key : ∀ (j : Nat) (g : File), g.disk = encodeLog bs → g.pos = (encodeLog bs).length →
      File.seekLoop 1 (j + 1) g = (g, some Err.EOF) := by
    intro j g hgd hgp
    rw [File.seekLoop, File.seekOne_at_end g (by rw [hgd, hgp])]
  have hsplit : ∀ (a b : Nat) (g : File) (g1 : File), File.seekLoop 1 a g = (g1, none) →
      File.seekLoop 1 (a + b) g = File.seekLoop 1 b g1 := by
    intro a
    induction a with
    | zero => intro b g g1 h; simp [File.seekLoop] at h; simp [h]
    | succ a ih =>
      intro b g g1 h
      rw [File.seekLoop] at h
      rw [Nat.add_right_comm, File.seekLoop]
      cases hr : g.seekOne 1 with
      | mk g2 r =>
        rw [hr] at h
        cases r with
        | some e => simp at h
        | none => simp only [] at h ⊢; exact ih b g2 g1 h
  have h1 := File.seekLoop_forward bs hs (bs.length - t) t f hd hp (by omega)
  obtain ⟨j, hj⟩ : ∃ j, k = (bs.length - t) + (j + 1) := ⟨k - (bs.length - t) - 1, by omega⟩
  rw [hj, hsplit _ _ _ _ h1]
  have ht2 : t + (bs.length - t) = bs.length := by omega
  rw [ht2, boundary_length]
  exact key j _ hd rfl

/-- More backward steps than records precede: the loop stops with the
error of the underlying seek, the raw cursor at offset 0. -/
theorem File.seekLoop_backward_fail (bs : List (List Byte))
    (hs : ∀ b ∈ bs, b.length + 8 < 2 ^ 32) (k t : Nat) (f : File)
    (hd : f.disk = encodeLog bs) (hp : f.pos = boundary bs t) (ht : t ≤ bs.length)
    (hk : t < k) :
    File.seekLoop (-1) k f = ({ f with pos := 0 }, some Err.EINVAL) := by
  have hsplit : ∀ (a b : Nat) (g : File) (g1 : File), File.seekLoop (-1) a g = (g1, none) →
      File.seekLoop (-1) (a + b) g = File.seekLoop (-1) b g1 := by
    intro a
    induction a with
    | zero => intro b g g1 h; simp [File.seekLoop] at h; simp [h]
    | succ a ih =>
      intro b g g1 h
      rw [File.seekLoop] at h
      rw [Nat.add_right_comm, File.seekLoop]
      cases hr : g.seekOne (-1) with
      | mk g2 r =>
        rw [hr] at h
        cases r with
        | some e => simp at h
        | none => simp only [] at h ⊢; exact ih b g2 g1 h
  have h1 := File.seekLoop_backward bs hs t t f hd hp (Nat.le_refl t) ht
  obtain ⟨j, hj⟩ : ∃ j, k = t + (j + 1) := ⟨k - t - 1, by omega⟩
  rw [hj, hsplit _ _ _ _ h1, Nat.sub_self, boundary_zero, File.seekLoop,
    File.seekOne_at_start _ (by simp)]

/-! ## Seek on a log of small records -/

theorem length_le_encodeLog (bs : List (List Byte)) : bs.length ≤ (encodeLog bs).length := by
  induction bs with
  | nil => simp
  | cons b bs ih => simp only [encodeLog, List.length_cons, List.length_append, frame_length]; omega

theorem toInt64_of_range (x : Int) (h0 : -2 ^ 63 ≤ x) (h1 : x < 2 ^ 63) : toInt64 x = x := by
  unfold toInt64
  rw [Int.emod_eq_of_lt (by omega) (by omega)]
  omega

theorem fpSeek_start (f : File) : fpSeek f 0 0 = ({ f with pos := 0 }, none) := by
  simp [fpSeek]

theorem fpSeek_end (f : File) : fpSeek f 0 2 = ({ f with pos := f.disk.length }, none) := by
  simp [fpSeek]

/-- The steps of `Seek` from record boundary `a` reach boundary `t = a + offset`. -/
theorem File.seekLoop_offset (bs : List (List Byte)) (hs : ∀ b ∈ bs, b.length + 8 < 2 ^ 32)
    (hlen : (encodeLog bs).length < 2 ^ 63) (f0 : File) (a t : Nat) (offset : Int)
    (hd : f0.disk = encodeLog bs) (hp : f0.pos = boundary bs a) (ha : a ≤ bs.length)
    (ht : (t : Int) = a + offset) (htn : t ≤ bs.length) :
    File.seekLoop (if offset < 0 then -1 else 1)
        (if offset < 0 then toInt64 (-offset) else offset).toNat f0 =
      ({ f0 with pos := boundary bs t }, none) := by
  have hn := length_le_encodeLog bs
  by_cases h : offset < 0
  · rw [if_pos h, if_pos h, toInt64_of_range _ (by omega) (by omega)]
    have hk : (-offset).toNat = a - t := by omega
    rw [hk, File.seekLoop_backward bs hs (a - t) a f0 hd hp (by omega) ha]
    have : a - (a - t) = t := by omega
    rw [this]
  · rw [if_neg h, if_neg h]
    have hk : offset.toNat = t - a := by omega
    rw [hk, File.seekLoop_forward bs hs (t - a) a f0 hd hp (by omega)]
    have : a + (t - a) = t := by omega
    rw [this]

/-- A `Seek` on a log of records shorter than 2^32 - 8 bytes, the raw cursor on
boundary `c`: when the target index `t` (anchor plus offset) lies in the log,
`Seek` returns nil, the raw cursor is on boundary `t` and the buffers are new. -/
theorem File.Seek_ok (bs : List (List Byte)) (hs : ∀ b ∈ bs, b.length + 8 < 2 ^ 32)
    (hlen : (encodeLog bs).length < 2 ^ 63) (f : File) (c t : Nat) (offset whence : Int)
    (hd : f.disk = encodeLog bs) (hp : f.pos = boundary bs c) (hc : c ≤ bs.length)
    (hw : whence = 0 ∨ whence = 1 ∨ whence = 2)
    (ht : (t : Int) = (if whence = 0 then 0 else if whence = 1 then (c : Int)
      else (bs.length : Int)) + offset)
    (htn : t ≤ bs.length) :
    File.Seek f offset whence =
      ({ disk := f.disk, pos := boundary bs t, rbuf := [], wbuf := [] }, none) := by
  rcases hw with rfl | rfl | rfl
  · have h := File.seekLoop_offset bs hs hlen { f with pos := 0 } 0 t offset hd
      (by rw [boundary_zero]) (Nat.zero_le _) (by simpa using ht) htn
    simp only [File.Seek, if_true, fpSeek_start]
    rw [h]
  · have h := File.seekLoop_offset bs hs hlen f c t offset hd hp hc (by simpa using ht) htn
    simp only [File.Seek, if_true, if_neg (show ¬ ((1 : Int) = 0) by decide)]
    rw [h]
  · have h := File.seekLoop_offset bs hs hlen { f with pos := f.disk.length } bs.length t offset
      hd (by rw [boundary_length, hd]) (Nat.le_refl _) (by simpa using ht) htn
    simp only [File.Seek, if_true, if_neg (show ¬ ((2 : Int) = 0) by decide),
      if_neg (show ¬ ((2 : Int) = 1) by decide), fpSeek_end]
    rw [h]

/-! ## Truncated frames -/

theorem File.Read_head_short {α : Type} (c : Serializable α) (f : File) (obj : α)
    (h : f.stream.length < 4) :
    (File.Read c f obj).2 =
      Res.error (if f.stream = [] then Err.EOF else Err.ErrUnexpectedEOF) := by
  have h1 := binaryRead_buf_short f h
  unfold File.Read
  cases hr : binaryRead bufRead f with
  | mk f1 r =>
    rw [hr] at h1
    simp only [] at h1
    subst h1
    rfl

theorem File.Read_body_short {α : Type} (c : Serializable α) (f : File) (obj : α)
    (h4 : 4 ≤ f.stream.length)
    (hb : (f.stream.drop 4).length < getUint32 (f.stream.take 4)) :
    (File.Read c f obj).2 =
      Res.error (if f.stream.drop 4 = [] then Err.EOF else Err.ErrUnexpectedEOF) := by
  obtain ⟨f1, e1, s1, -, -⟩ := binaryRead_buf_ok f h4
  have h2 := readFull_buf_short f1 (getUint32 (f.stream.take 4)) (by rw [s1]; exact hb)
  unfold File.Read
  rw [e1]
  simp only []
  cases hr : readFull bufRead f1 (getUint32 (f.stream.take 4)) with
  | mk f2 r =>
    rw [hr] at h2
    simp only [] at h2
    subst h2
    rw [s1]

theorem File.Read_tail_short {α : Type} (c : Serializable α) (f : File) (obj : α)
    (h4 : 4 ≤ f.stream.length)
    (hb : getUint32 (f.stream.take 4) ≤ (f.stream.drop 4).length)
    (ht : (f.stream.drop 4).length < getUint32 (f.stream.take 4) + 4) :
    (File.Read c f obj).2 =
      Res.error (if (f.stream.drop 4).drop (getUint32 (f.stream.take 4)) = [] then Err.EOF
        else Err.ErrUnexpectedEOF) := by
  obtain ⟨f1, e1, s1, -, -⟩ := binaryRead_buf_ok f h4
  obtain ⟨f2, e2, s2, -, -⟩ := readFull_buf_ok f1 (getUint32 (f.stream.take 4))
    (by rw [s1]; exact hb)
  have h3 := binaryRead_buf_short f2 (by rw [s2, s1, List.length_drop]; omega)
  unfold File.Read
  rw [e1]
  simp only []
  rw [e2]
  simp only []
  cases hr : binaryRead bufRead f2 with
  | mk f3 r =>
    rw [hr] at h3
    simp only [] at h3
    subst h3
    rw [s2, s1]

/-- C9, as the code has it.  `File.Read` on a stream that ends before the
frame it starts is complete (fewer than `8 + L` bytes, `L` the length the
head announces): the error is `io.EOF` when the stream is empty, when it
ends exactly after the head, or when it ends exactly after the body; it is
`io.ErrUnexpectedEOF` when the stream ends inside the head, inside the body
or inside the tail, at least one byte of that part being present. -/
theorem File.Read_truncated {α : Type} (c : Serializable α) (f : File) (obj : α)
    (h : f.stream.length < 8 + getUint32 (f.stream.take 4)) :
    (File.Read c f obj).2 =
      Res.error (if f.stream.length = 0 ∨ f.stream.length = 4 ∨
          f.stream.length = 4 + getUint32 (f.stream.take 4)
        then Err.EOF else Err.ErrUnexpectedEOF) := by
  by_cases h4 : f.stream.length < 4
  · rw [File.Read_head_short c f obj h4]
    have hL : getUint32 (f.stream.take 4) = 0 := by
      rw [List.take_of_length_le (by omega)]
      match hS : f.stream, h4 with
      | [], _ => rfl
      | [_], _ => rfl
      | [_, _], _ => rfl
      | [_, _, _], _ => rfl
      | _ :: _ :: _ :: _ :: _, h4 => simp at h4; omega
    by_cases h0 : f.stream = []
    · simp [h0]
    · have : f.stream.length ≠ 0 := by
        intro hl; exact h0 (List.length_eq_zero.mp hl)
      rw [if_neg h0, if_neg (by rw [hL]; omega)]
  · have h4' : 4 ≤ f.stream.length := by omega
    have hdl : (f.stream.drop 4).length = f.stream.length - 4 := List.length_drop _ _
    by_cases hb : (f.stream.drop 4).length < getUint32 (f.stream.take 4)
    · rw [File.Read_body_short c f obj h4' hb]
      by_cases h0 : f.stream.drop 4 = []
      · have : f.stream.length = 4 := by
          have := congrArg List.length h0
          simp at this; omega
        rw [if_pos h0, if_pos (Or.inr (Or.inl this))]
      · have : f.stream.length ≠ 4 := by
          intro hl; apply h0; apply List.length_eq_zero.mp; omega
        rw [if_neg h0, if_neg (by omega)]
    · rw [File.Read_tail_short c f obj h4' (by omega) (by omega)]
      by_cases h0 : (f.stream.drop 4).drop (getUint32 (f.stream.take 4)) = []
      · have : f.stream.length = 4 + getUint32 (f.stream.take 4) := by
          have := congrArg List.length h0
          simp at this; omega
        rw [if_pos h0, if_pos (Or.inr (Or.inr this))]
      · have : f.stream.length ≠ 4 + getUint32 (f.stream.take 4) := by
          intro hl; apply h0; apply List.length_eq_zero.mp
          rw [List.length_drop]; omega
        rw [if_neg h0, if_neg (by omega)]

theorem File.Read_truncated_witness :
    (File.Read rawCodec (NewFile (putUint32 5 ++ [1, 2])) []).2 =
      Res.error (if (NewFile (putUint32 5 ++ [1, 2])).stream.length = 0 ∨
          (NewFile (putUint32 5 ++ [1, 2])).stream.length = 4 ∨
          (NewFile (putUint32 5 ++ [1, 2])).stream.length =
            4 + getUint32 ((NewFile (putUint32 5 ++ [1, 2])).stream.take 4)
        then Err.EOF else Err.ErrUnexpectedEOF) :=
  File.Read_truncated rawCodec (NewFile (putUint32 5 ++ [1, 2])) [] (by decide)

/-- C9, the claim as stated fails: a stream that holds a complete head
announcing five bytes and then ends (it ends before the body) makes
`File.Read` return `io.EOF`, and so does one that ends before the tail. -/
theorem File.Read_EOF_before_body :
    (NewFile (putUint32 5)).stream = putUint32 5 ∧
    (File.Read rawCodec (NewFile (putUint32 5)) []).2 = Res.error Err.EOF ∧
    (File.Read rawCodec (NewFile (putUint32 2 ++ [1, 2])) []).2 = Res.error Err.EOF := by
  decide

/-! ## Records of almost 4 GB

The facts of this section are stated for any body `b` of 2^32 - 1 bytes and
used for `bigBody`. -/

theorem bigBody_length : bigBody.length = 4294967295 := by
  unfold bigBody
  exact List.length_replicate _ _

theorem drop_bigBody : bigBody.drop 4294967292 = [0, 0, 0] := by
  unfold bigBody
  rw [List.drop_replicate]
  rfl

theorem frame_big_length (b : List Byte) (hb : b.length = 4294967295) :
    (frame b).length = 4294967303 := by
  rw [frame_length, hb]

theorem encodeLog_single (b : List Byte) : encodeLog [b] = frame b := by
  simp [encodeLog]

theorem drop_frame_big (b : List Byte) (hb : b.length = 4294967295)
    (h3 : b.drop 4294967292 = [0, 0, 0]) :
    (frame b).drop 4294967296 = [0, 0, 0, 255, 255, 255, 255] := by
  have h1 : (4294967296 : Nat) = 4 + 4294967292 := by norm_num
  have h2 : putUint32 (Size b.length) = [255, 255, 255, 255] := by
    rw [hb]; decide
  rw [frame, h2, List.append_assoc, h1, drop_add_drop, List.drop_left' (by rfl),
    List.drop_append_eq_append_drop, h3, hb]
  rfl

/-- A backward seek at the end of a file that holds one frame of 2^32 - 1 bytes. -/
theorem File.Seek_back_big (b : List Byte) (hb : b.length = 4294967295) (g : File)
    (hd : g.disk = frame b) (hp : g.pos = 4294967303) :
    File.Seek g (-1) 1 =
      ({ disk := frame b, pos := 4294967296, rbuf := [], wbuf := [] }, none) := by
  have h1 := File.seekOne_backward g [] b [] (by simp [hd])
    (by rw [hp, hb]; rfl) (by rw [hb]; norm_num)
  have hS : Size (b.length + 8) = 7 := by rw [hb]; decide
  rw [hS, hb] at h1
  have h2 : File.seekLoop (-1) 1 g = ({ g with pos := 4294967296 }, none) := by
    rw [File.seekLoop, h1]
    simp [File.seekLoop]
  have h3 : (if (-1 : Int) < 0 then toInt64 (- -1) else -1).toNat = 1 := by decide
  simp only [File.Seek, if_neg (show ¬ ((1 : Int) = 0) by decide), if_true]
  rw [h3, if_pos (by decide), h2, hd]

theorem File.Read_after_big {α : Type} (c : Serializable α) (obj : α) (b : List Byte)
    (hb : b.length = 4294967295) (h3 : b.drop 4294967292 = [0, 0, 0]) :
    (File.Read c { disk := frame b, pos := 4294967296, rbuf := [], wbuf := [] } obj).2 =
      Res.error Err.ErrUnexpectedEOF := by
  have hs : File.stream { disk := frame b, pos := 4294967296, rbuf := [], wbuf := [] } =
      [0, 0, 0, 255, 255, 255, 255] := by
    simp only [File.stream, List.nil_append, drop_frame_big b hb h3]
  rw [File.Read_body_short c _ obj (by rw [hs]; decide) (by rw [hs]; decide), hs]
  rfl

theorem File.Seek_zero_start (f : File) :
    File.Seek f 0 0 = ({ disk := f.disk, pos := 0, rbuf := [], wbuf := [] }, none) := by
  simp [File.Seek, fpSeek_start, File.seekLoop]

theorem File.Seek_zero_cur (f : File) :
    File.Seek f 0 1 = ({ disk := f.disk, pos := f.pos, rbuf := [], wbuf := [] }, none) := by
  simp [File.Seek, File.seekLoop]

theorem File.Seek_zero_end (f : File) :
    File.Seek f 0 2 =
      ({ disk := f.disk, pos := f.disk.length, rbuf := [], wbuf := [] }, none) := by
  simp [File.Seek, fpSeek_end, File.seekLoop]

theorem writeAt_nil (p : List Byte) : writeAt [] 0 p = p := by
  simp [writeAt]

theorem rawCodec_Marshal (v : List Byte) : rawCodec.Marshal v = Res.ok v := rfl

/-- A `File.Write` on a new handle of an empty file. -/
theorem File.Write_empty {α : Type} (c : Serializable α) (obj : α) (b : List Byte)
    (hm : c.Marshal obj = Res.ok b) :
    File.Write c (NewFile []) obj =
      ({ disk := frame b, pos := 8 + b.length, rbuf := [], wbuf := [] }, none) := by
  rw [File.Write_eq c (NewFile []) obj b hm rfl]
  simp only [fpWrite, frame_ne_nil, if_false, NewFile, writeAt_nil, frame_length, Nat.zero_add]

/-- The calls `Seek(-1, 1)` and `Read` at the end of a file that holds one frame with a
body of 2^32 - 1 bytes. -/
theorem File.Seek_Read_big (b : List Byte) (hb : b.length = 4294967295)
    (h3 : b.drop 4294967292 = [0, 0, 0]) (g : File) (hd : g.disk = frame b)
    (hp : g.pos = 4294967303) :
    (File.Seek g (-1) 1).2 = none ∧ (File.Seek g (-1) 1).1.pos = 4294967296 ∧
    (File.Read rawCodec (File.Seek g (-1) 1).1 []).2 = Res.error Err.ErrUnexpectedEOF := by
  rw [File.Seek_back_big b hb g hd hp]
  exact ⟨rfl, rfl, File.Read_after_big rawCodec [] b hb h3⟩

theorem File.Write_Seek_Read_big (b : List Byte) (hb : b.length = 4294967295)
    (h3 : b.drop 4294967292 = [0, 0, 0]) :
    (File.Write rawCodec (NewFile []) b).2 = none ∧
    (File.Seek (File.Write rawCodec (NewFile []) b).1 (-1) 1).2 = none ∧
    (File.Seek (File.Write rawCodec (NewFile []) b).1 (-1) 1).1.pos = 4294967296 ∧
    (File.Read rawCodec (File.Seek (File.Write rawCodec (NewFile []) b).1 (-1) 1).1 []).2 =
      Res.error Err.ErrUnexpectedEOF := by
  rw [File.Write_empty rawCodec b b rfl]
  exact ⟨rfl, File.Seek_Read_big b hb h3 _ rfl (by simp only [hb])⟩

/-- A forward step over a frame whose body has 2^32 - 1 bytes. -/
theorem File.Seek_forward_big (b : List Byte) (hb : b.length = 4294967295) :
    File.Seek (NewFile (encodeLog [b])) 1 0 =
      ({ disk := encodeLog [b], pos := 7, rbuf := [], wbuf := [] }, none) := by
  have h1 := File.seekOne_forward { (NewFile (encodeLog [b])) with pos := 0 }
    [] b [] (by simp [NewFile, encodeLog]) rfl (by rw [hb]; norm_num)
  have hS : Size (b.length + 4) = 3 := by rw [hb]; decide
  rw [hS] at h1
  have h3 : (if (1 : Int) < 0 then toInt64 (-1) else 1).toNat = 1 := by decide
  simp only [File.Seek, if_true, fpSeek_start]
  rw [h3, if_neg (by decide), File.seekLoop, h1]
  simp [File.seekLoop, NewFile]

/-- Reading the only record of a log from the start of the file. -/
theorem File.Read_single (b : List Byte) (hb : b.length < 2 ^ 32) (g : File)
    (hd : g.disk = frame b) (hp : g.pos = 0) (hr : g.rbuf = []) :
    (File.Read rawCodec g []).2 = Res.ok b := by
  obtain ⟨f1, e1, -, -, -⟩ := File.Read_frame rawCodec g []
    (putUint32 (Size b.length)) b (putUint32 (Size b.length)) []
    (putUint32_length _)
    ((getUint32_putUint32 _ (Nat.mod_lt _ (by norm_num))).trans (Size_of_lt _ hb))
    (putUint32_length _) (by simp [File.stream, frame, hd, hp, hr])
  rw [e1]
  rfl

theorem File.Seek_symmetry_big (b : List Byte) (hb : b.length = 4294967295)
    (h3 : b.drop 4294967292 = [0, 0, 0]) :
    ((File.Seek (NewFile (encodeLog [b])) 0 2).2 = none ∧
     (File.Seek (File.Seek (NewFile (encodeLog [b])) 0 2).1 (-1) 1).2 = none ∧
     (File.Read rawCodec
        (File.Seek (File.Seek (NewFile (encodeLog [b])) 0 2).1 (-1) 1).1 []).2 =
      Res.error Err.ErrUnexpectedEOF) ∧
    ((File.Seek (NewFile (encodeLog [b])) 0 0).2 = none ∧
     (File.Seek (File.Seek (NewFile (encodeLog [b])) 0 0).1 0 1).2 = none ∧
     (File.Read rawCodec
        (File.Seek (File.Seek (NewFile (encodeLog [b])) 0 0).1 0 1).1 []).2 =
      Res.ok b) := by
  constructor
  · rw [File.Seek_zero_end]
    have h := File.Seek_Read_big b hb h3
      { disk := (NewFile (encodeLog [b])).disk,
        pos := (NewFile (encodeLog [b])).disk.length, rbuf := [], wbuf := [] }
      (encodeLog_single b) ((congrArg List.length (encodeLog_single b)).trans
        (frame_big_length b hb))
    exact ⟨rfl, h.1, h.2.2⟩
  · rw [File.Seek_zero_start, File.Seek_zero_cur]
    exact ⟨rfl, rfl, File.Read_single b (by rw [hb]; norm_num) _
      (encodeLog_single b) rfl rfl⟩

theorem boundary_big (b : List Byte) (hb : b.length = 4294967295) :
    boundary [b] 1 = 4294967303 := by
  rw [show (1 : Nat) = [b].length from rfl, boundary_length, encodeLog_single,
    frame_big_length b hb]

/-- C2 at a value whose encoding has 2^32 - 1 bytes, written to an empty
file: `File.Write` returns nil and `Seek(-1, 1)` returns nil, but the raw
cursor is then at byte 2^32, seven bytes before the end, instead of 0, and
`Read` fails with `io.ErrUnexpectedEOF` instead of yielding the value. -/
theorem File.Write_Seek_Read_bigBody :
    (File.Write rawCodec (NewFile []) bigBody).2 = none ∧
    (File.Seek (File.Write rawCodec (NewFile []) bigBody).1 (-1) 1).2 = none ∧
    (File.Seek (File.Write rawCodec (NewFile []) bigBody).1 (-1) 1).1.pos = 4294967296 ∧
    (File.Read rawCodec (File.Seek (File.Write rawCodec (NewFile []) bigBody).1 (-1) 1).1 []).2 =
      Res.error Err.ErrUnexpectedEOF :=
  File.Write_Seek_Read_big bigBody bigBody_length drop_bigBody

/-- C4 at the log of one record of 2^32 - 1 bytes, `n = 1` and `i = 0`: all
four seeks return nil; the `Read` after `Seek(0, 2); Seek(-1, 1)` fails with
`io.ErrUnexpectedEOF`, the `Read` after `Seek(0, 0); Seek(0, 1)` yields the
record. -/
theorem File.Seek_symmetry_bigBody :
    ((File.Seek (NewFile (encodeLog [bigBody])) 0 2).2 = none ∧
     (File.Seek (File.Seek (NewFile (encodeLog [bigBody])) 0 2).1 (-1) 1).2 = none ∧
     (File.Read rawCodec
        (File.Seek (File.Seek (NewFile (encodeLog [bigBody])) 0 2).1 (-1) 1).1 []).2 =
      Res.error Err.ErrUnexpectedEOF) ∧
    ((File.Seek (NewFile (encodeLog [bigBody])) 0 0).2 = none ∧
     (File.Seek (File.Seek (NewFile (encodeLog [bigBody])) 0 0).1 0 1).2 = none ∧
     (File.Read rawCodec
        (File.Seek (File.Seek (NewFile (encodeLog [bigBody])) 0 0).1 0 1).1 []).2 =
      Res.ok bigBody) :=
  File.Seek_symmetry_big bigBody bigBody_length drop_bigBody

/-- C5 at the log of one record of 2^32 - 1 bytes: `Seek(1, 0)` (target
index 1 = n) returns nil and leaves the raw cursor at byte 7, while record
boundary 1 is byte 8 + (2^32 - 1). -/
theorem File.Seek_forward_bigBody :
    File.Seek (NewFile (encodeLog [bigBody])) 1 0 =
      ({ disk := encodeLog [bigBody], pos := 7, rbuf := [], wbuf := [] }, none) ∧
    boundary [bigBody] 1 = 4294967303 :=
  ⟨File.Seek_forward_big bigBody bigBody_length, boundary_big bigBody bigBody_length⟩

/-- C10 at the offset -2^63, for every file state and so for every log: the
negation in `Seek` leaves the offset negative, no step is made and `Seek`
returns nil, with the raw cursor on the anchor of `whence`. -/
theorem File.Seek_minInt64 (f : File) :
    File.Seek f (-9223372036854775808) 0 =
      ({ disk := f.disk, pos := 0, rbuf := [], wbuf := [] }, none) ∧
    File.Seek f (-9223372036854775808) 1 =
      ({ disk := f.disk, pos := f.pos, rbuf := [], wbuf := [] }, none) ∧
    File.Seek f (-9223372036854775808) 2 =
      ({ disk := f.disk, pos := f.disk.length, rbuf := [], wbuf := [] }, none) := by
  have h : (if (-9223372036854775808 : Int) < 0 then toInt64 (- -9223372036854775808)
      else -9223372036854775808).toNat = 0 := by decide
  refine ⟨?_, ?_, ?_⟩
  · simp only [File.Seek, if_true, fpSeek_start]
    rw [h]; rfl
  · simp only [File.Seek, if_true, if_neg (show ¬ ((1 : Int) = 0) by decide)]
    rw [h]; rfl
  · simp only [File.Seek, if_true, if_neg (show ¬ ((2 : Int) = 0) by decide),
      if_neg (show ¬ ((2 : Int) = 1) by decide), fpSeek_end]
    rw [h]; rfl

/-! ## Reading a whole log -/

theorem readAtLeast_buf_keeps (fuel : Nat) : ∀ (need : Nat) (f : File) (acc : List Byte),
    (readAtLeast bufRead fuel f need acc).1.disk = f.disk ∧
    (readAtLeast bufRead fuel f need acc).1.wbuf = f.wbuf := by
  induction fuel with
  | zero =>
    intro need f acc
    cases need <;> exact ⟨rfl, rfl⟩
  | succ m ih =>
    intro need f acc
    cases need with
    | zero => exact ⟨rfl, rfl⟩
    | succ n =>
      obtain ⟨-, -, -, hd, hw⟩ := bufRead_spec f (n + 1) (Nat.succ_pos n)
      rw [readAtLeast]
      cases hq : bufRead f (n + 1) with
      | mk q1 q2 =>
        rw [hq] at hd hw
        cases q2 with
        | nil => exact ⟨hd, hw⟩
        | cons x xs =>
          obtain ⟨h1, h2⟩ := ih (n + 1 - (x :: xs).length) q1 (acc ++ x :: xs)
          exact ⟨h1.trans hd, h2.trans hw⟩

theorem binaryRead_buf_keeps (f : File) :
    (binaryRead bufRead f).1.disk = f.disk ∧ (binaryRead bufRead f).1.wbuf = f.wbuf := by
  have h := readAtLeast_buf_keeps 4 4 f []
  unfold binaryRead readFull
  cases hq : readAtLeast bufRead 4 f 4 [] with
  | mk g r =>
    rw [hq] at h
    cases r <;> exact h

/-- A `File.Read` changes neither the file nor the write buffer, whatever it returns. -/
theorem File.Read_keeps {α : Type} (c : Serializable α) (f : File) (obj : α) :
    (File.Read c f obj).1.disk = f.disk ∧ (File.Read c f obj).1.wbuf = f.wbuf := by
  have h1 := binaryRead_buf_keeps f
  unfold File.Read
  cases hq1 : binaryRead bufRead f with
  | mk f1 r1 =>
    rw [hq1] at h1
    cases r1 with
    | error e => exact h1
    | ok size =>
      have h2 := readAtLeast_buf_keeps size size f1 []
      simp only [readFull]
      cases hq2 : readAtLeast bufRead size f1 size [] with
      | mk f2 r2 =>
        rw [hq2] at h2
        cases r2 with
        | error e => exact ⟨h2.1.trans h1.1, h2.2.trans h1.2⟩
        | ok bytes =>
          have h3 := binaryRead_buf_keeps f2
          simp only []
          cases hq3 : binaryRead bufRead f2 with
          | mk f3 r3 =>
            rw [hq3] at h3
            cases r3 with
            | error e => exact ⟨h3.1.trans (h2.1.trans h1.1), h3.2.trans (h2.2.trans h1.2)⟩
            | ok t => exact ⟨h3.1.trans (h2.1.trans h1.1), h3.2.trans (h2.2.trans h1.2)⟩

/-- A `File.Read` at the head of a log whose first record is the encoding of
`v`: it yields `v` and the stream continues with the rest of the log. -/
theorem File.Read_log {α : Type} (c : Serializable α)
    (hrt : ∀ (o v : α) (b : List Byte), c.Marshal v = Res.ok b → c.Unmarshal o b = Res.ok v)
    (f : File) (obj v : α) (b : List Byte) (bs : List (List Byte))
    (hm : c.Marshal v = Res.ok b) (hb : b.length < 2 ^ 32)
    (hs : f.stream = encodeLog (b :: bs)) :
    ∃ f1, File.Read c f obj = (f1, Res.ok v) ∧ f1.stream = encodeLog bs ∧
      f1.disk = f.disk ∧ f1.wbuf = f.wbuf := by
  obtain ⟨f1, e1, s1, d1, w1⟩ := File.Read_frame c f obj
    (putUint32 (Size b.length)) b (putUint32 (Size b.length)) (encodeLog bs)
    (putUint32_length _)
    ((getUint32_putUint32 _ (Nat.mod_lt _ (by norm_num))).trans (Size_of_lt _ hb))
    (putUint32_length _) (by rw [hs, encodeLog, frame])
  exact ⟨f1, by rw [e1, hrt obj v b hm], s1, d1, w1⟩

/-- A `File.Read` at the end of the stream returns `io.EOF`. -/
theorem File.Read_at_end {α : Type} (c : Serializable α) (f : File) (obj : α)
    (hs : f.stream = []) : (File.Read c f obj).2 = Res.error Err.EOF := by
  rw [File.Read_head_short c f obj (by rw [hs]; decide), if_pos hs]

/-- Reading a well-formed log record by record: `n` calls of `Read` yield the
`n` values in order, and the stream is then at its end. -/
theorem readN_log {α : Type} (c : Serializable α)
    (hrt : ∀ (o v : α) (b : List Byte), c.Marshal v = Res.ok b → c.Unmarshal o b = Res.ok v)
    (zero : α) : ∀ (vs : List α) (bs : List (List Byte)) (f : File),
    List.Forall₂ (fun v b => c.Marshal v = Res.ok b ∧ b.length < 2 ^ 32) vs bs →
    f.stream = encodeLog bs →
    ∃ f1, readN c zero vs.length f = (f1, Res.ok vs) ∧ f1.stream = [] ∧
      f1.disk = f.disk ∧ f1.wbuf = f.wbuf := by
  intro vs
  induction vs with
  | nil =>
    intro bs f h hs
    cases h
    exact ⟨f, rfl, hs, rfl, rfl⟩
  | cons v vs ih =>
    intro bs f h hs
    cases h with
    | cons hv hrest =>
      obtain ⟨f1, e1, s1, d1, w1⟩ := File.Read_log c hrt f zero v _ _ hv.1 hv.2 hs
      obtain ⟨f2, e2, s2, d2, w2⟩ := ih _ f1 hrest s1
      refine ⟨f2, ?_, s2, d2.trans d1, w2.trans w1⟩
      simp only [List.length_cons, readN, e1, e2]

/-- The loop of `ReadAll` over a well-formed log, when the objects can be
appended to the slice: it collects the values in order and ends at `io.EOF`. -/
theorem readAllLoop_log {α : Type} (c : Serializable α)
    (hrt : ∀ (o v : α) (b : List Byte), c.Marshal v = Res.ok b → c.Unmarshal o b = Res.ok v)
    (zero : α) (sliceT objT : GoType) (ht : sliceT.Elem = some objT) :
    ∀ (vs : List α) (bs : List (List Byte)) (fuel : Nat) (f : File) (acc : List α),
    List.Forall₂ (fun v b => c.Marshal v = Res.ok b ∧ b.length < 2 ^ 32) vs bs →
    f.stream = encodeLog bs → vs.length < fuel →
    ∃ f1, readAllLoop (File.Read c) zero sliceT objT fuel f acc = (f1, acc ++ vs, Ret.nil) ∧
      f1.disk = f.disk ∧ f1.wbuf = f.wbuf := by
  intro vs
  induction vs with
  | nil =>
    intro bs fuel f acc h hs hf
    cases h
    obtain ⟨k, rfl⟩ : ∃ k, fuel = k + 1 := ⟨fuel - 1, by simp at hf; omega⟩
    have he := File.Read_at_end c f zero hs
    cases hr : File.Read c f zero with
    | mk f1 r =>
      rw [hr] at he
      simp only [] at he
      subst he
      have hd := File.Read_keeps c f zero
      rw [hr] at hd
      exact ⟨f1, by simp [readAllLoop, hr], hd.1, hd.2⟩
  | cons v vs ih =>
    intro bs fuel f acc h hs hf
    cases h with
    | cons hv hrest =>
      obtain ⟨k, rfl⟩ : ∃ k, fuel = k + 1 := ⟨fuel - 1, by simp at hf; omega⟩
      obtain ⟨f1, e1, s1, d1, w1⟩ := File.Read_log c hrt f zero v _ _ hv.1 hv.2 hs
      obtain ⟨f2, e2, d2, w2⟩ := ih _ k f1 (acc ++ [v]) hrest s1 (by simp at hf; omega)
      refine ⟨f2, ?_, d2.trans d1, w2.trans w1⟩
      simp only [readAllLoop, e1, ht, if_true, e2, List.append_assoc, List.singleton_append]

/-! ## ReadAll and the destination type -/

/-- C3 on the code.  For a destination of type `*[]*T` or `*[]T` with `T` a
struct type whose pointer has `Marshal` and `Unmarshal` (the destination
`*[]*example.PreAccept` of the tests is one), `Persistence.ReadAll` panics
before the first `Read`, whatever the file holds: `t` is the struct type
when `reflect.MakeSlice(t.Elem(), 0, 0)` is reached, and `Elem` of a struct
type panics.  The file state and the destination stay as they were. -/
theorem ReadAll_struct_panics {α : Type} (methods : GoType → Option (Serializable α))
    (zero : α) (name : String) (c : Serializable α) (f : File) (dst : List α)
    (hm : methods (GoType.struct name) = some c) :
    ReadAll methods zero (GoType.ptr (GoType.slice (GoType.ptr (GoType.struct name)))) f dst =
      (f, dst, Ret.panic) ∧
    ReadAll methods zero (GoType.ptr (GoType.slice (GoType.struct name))) f dst =
      (f, dst, Ret.panic) := by
  constructor <;> simp [ReadAll, GoType.isPtr, GoType.isSlice, GoType.Elem, hm]

theorem ReadAll_struct_panics_witness :
    (writeAll rawCodec (NewFile []) [[1], [2, 3]]).2 = none ∧
    (writeAll rawCodec (NewFile []) [[1], [2, 3]]).1.disk = encodeLog [[1], [2, 3]] ∧
    ReadAll (preAcceptMethods rawCodec) []
        (GoType.ptr (GoType.slice (GoType.ptr (GoType.struct "example.PreAccept"))))
        (NewFile (encodeLog [[1], [2, 3]])) [] =
      (NewFile (encodeLog [[1], [2, 3]]), [], Ret.panic) :=
  ⟨by decide, by decide,
    (ReadAll_struct_panics (preAcceptMethods rawCodec) [] "example.PreAccept" rawCodec
      (NewFile (encodeLog [[1], [2, 3]])) [] rfl).1⟩

/-- C6 on the code, at three records, `k = 1` and two new records: the
writes, `Seek(1, 0)`, `Truncate` and `Seek(0, 0)` return nil and leave the
file holding the log of the first record and the two new ones, the raw
cursor at 0; `ReadAll` into the destination of `TestTruncate` then panics
and the destination stays empty. -/
theorem Truncate_append_ReadAll_panics :
    (writeAll rawCodec (NewFile []) [[1], [2, 2], [3, 3, 3]]).2 = none ∧
    (Seek (writeAll rawCodec (NewFile []) [[1], [2, 2], [3, 3, 3]]).1 1 0).2 = none ∧
    (Truncate (Seek (writeAll rawCodec (NewFile []) [[1], [2, 2], [3, 3, 3]]).1 1 0).1).2
      = none ∧
    (writeAll rawCodec
      (Truncate (Seek (writeAll rawCodec (NewFile []) [[1], [2, 2], [3, 3, 3]]).1 1 0).1).1
      [[4], [5, 5]]).2 = none ∧
    Seek (writeAll rawCodec
      (Truncate (Seek (writeAll rawCodec (NewFile []) [[1], [2, 2], [3, 3, 3]]).1 1 0).1).1
      [[4], [5, 5]]).1 0 0 = (NewFile (encodeLog [[1], [4], [5, 5]]), none) ∧
    ReadAll (preAcceptMethods rawCodec) [] preAcceptDst
        (NewFile (encodeLog [[1], [4], [5, 5]])) [] =
      (NewFile (encodeLog [[1], [4], [5, 5]]), [], Ret.panic) := by
  decide

/-- C8 on the code, at the empty log: `ReadAll` into the destination of the
tests panics instead of returning nil and an empty sequence; a `Read` on the
empty log returns `io.EOF`. -/
theorem ReadAll_empty_panics :
    ReadAll (preAcceptMethods rawCodec) [] preAcceptDst (NewFile (encodeLog [])) [] =
      (NewFile (encodeLog []), [], Ret.panic) ∧
    (Read rawCodec (NewFile (encodeLog [])) []).2 = Res.error Err.EOF := by
  decide

/-! ## What holds for records shorter than 2^32 - 8 bytes -/

theorem writeAt_end (d p : List Byte) : writeAt d d.length p = d ++ p := by
  simp [writeAt]

/-- Appending records with `Write` at the end of a log. -/
theorem writeAll_log {α : Type} (c : Serializable α) :
    ∀ (vs : List α) (bs1 : List (List Byte)) (f : File) (bs : List (List Byte)),
    List.Forall₂ (fun v b => c.Marshal v = Res.ok b ∧ b.length < 2 ^ 32) vs bs1 →
    f.disk = encodeLog bs → f.pos = f.disk.length → f.wbuf = [] →
    writeAll c f vs =
      ({ disk := encodeLog (bs ++ bs1), pos := (encodeLog (bs ++ bs1)).length,
         rbuf := f.rbuf, wbuf := [] }, none) := by
  intro vs
  induction vs with
  | nil =>
    intro bs1 f bs h hd hp hw
    cases h
    cases f
    simp_all [writeAll]
  | cons v vs ih =>
    intro bs1 f bs h hd hp hw
    cases h with
    | cons hv hrest =>
      rename_i b bs2
      have h1 := File.Write_eq c f v b hv.1 hw
      have h2 := ih bs2 (fpWrite f (frame b)) (bs ++ [b]) hrest
        (by simp [fpWrite, frame_ne_nil, hp, writeAt_end, hd, encodeLog_append, encodeLog])
        (by simp [fpWrite, frame_ne_nil, hp, writeAt_end])
        (by rw [fpWrite_wbuf]; exact hw)
      rw [writeAll, Write, h1]
      simp only []
      rw [h2]
      simp [fpWrite, frame_ne_nil]

theorem File.Truncate_cut (f : File) (h : f.pos ≤ f.disk.length) :
    File.Truncate f =
      ({ disk := f.disk.take f.pos, pos := f.pos, rbuf := [], wbuf := [] }, none) := by
  simp [File.Truncate, fpSeek_cur_zero, fpTruncate, Nat.sub_eq_zero_of_le h]

theorem take_encodeLog (bs : List (List Byte)) (t : Nat) :
    (encodeLog bs).take (boundary bs t) = encodeLog (bs.take t) := by
  rcases Nat.lt_or_ge t bs.length with h | h
  · obtain ⟨xs, b, ys, rfl, rfl⟩ := split_at bs t h
    rw [boundary_left, encodeLog_append, List.take_left, List.take_left']
    rfl
  · rw [List.take_of_length_le h]
    have : boundary bs t = boundary bs bs.length := by
      simp [boundary, List.take_of_length_le h]
    rw [this, boundary_length, List.take_length]

theorem boundary_take (bs : List (List Byte)) (t : Nat) :
    (encodeLog (bs.take t)).length = boundary bs t := by
  rw [← take_encodeLog, List.length_take]
  rcases Nat.lt_or_ge t bs.length with h | h
  · exact Nat.min_eq_left (boundary_mono bs t (Nat.le_of_lt h))
  · have : boundary bs t = boundary bs bs.length := by
      simp [boundary, List.take_of_length_le h]
    rw [this, boundary_length]; simp

/-- The route of C6 up to the reading, for records shorter than 2^32 - 8
bytes: writing `rs` to an empty log, `Seek(k, 0)`, `Truncate`, writing `ws`
and `Seek(0, 0)` all return nil and leave a new handle state on the log of
the first `k` old records followed by the new ones. -/
theorem truncate_append_log {α : Type} (c : Serializable α)
    (rs ws : List α) (rbs wbs : List (List Byte)) (k : Nat)
    (hr : List.Forall₂ (fun v b => c.Marshal v = Res.ok b ∧ b.length < 2 ^ 32) rs rbs)
    (hw : List.Forall₂ (fun v b => c.Marshal v = Res.ok b ∧ b.length < 2 ^ 32) ws wbs)
    (hs : ∀ b ∈ rbs, b.length + 8 < 2 ^ 32) (hlen : (encodeLog rbs).length < 2 ^ 63)
    (hk : k ≤ rbs.length) :
    (writeAll c (NewFile []) rs).2 = none ∧
    (Seek (writeAll c (NewFile []) rs).1 k 0).2 = none ∧
    (Truncate (Seek (writeAll c (NewFile []) rs).1 k 0).1).2 = none ∧
    (writeAll c (Truncate (Seek (writeAll c (NewFile []) rs).1 k 0).1).1 ws).2 = none ∧
    Seek (writeAll c (Truncate (Seek (writeAll c (NewFile []) rs).1 k 0).1).1 ws).1 0 0 =
      (NewFile (encodeLog (rbs.take k ++ wbs)), none) := by
  have h1 := writeAll_log c rs rbs (NewFile []) [] hr rfl rfl rfl
  simp only [List.nil_append, NewFile] at h1
  have h2 := File.Seek_ok rbs hs hlen
    { disk := encodeLog rbs, pos := (encodeLog rbs).length, rbuf := [], wbuf := [] }
    rbs.length k (k : Int) 0 rfl (boundary_length rbs).symm (Nat.le_refl _) (Or.inl rfl)
    (by simp) hk
  simp only [] at h2
  have h3 := File.Truncate_cut
    { disk := encodeLog rbs, pos := boundary rbs k, rbuf := [], wbuf := [] }
    (boundary_mono rbs k hk)
  simp only [take_encodeLog] at h3
  have h4 := writeAll_log c ws wbs
    { disk := encodeLog (rbs.take k), pos := boundary rbs k, rbuf := [], wbuf := [] }
    (rbs.take k) hw rfl (boundary_take rbs k).symm rfl
  simp only [] at h4
  simp only [NewFile, Seek, Truncate]
  rw [h1]
  simp only []
  rw [h2]
  simp only []
  rw [h3]
  simp only []
  rw [h4]
  simp only []
  rw [File.Seek_zero_start]
  exact ⟨trivial, trivial, trivial, trivial, rfl⟩

theorem drop_encodeLog (bs : List (List Byte)) (t : Nat) :
    (encodeLog bs).drop (boundary bs t) = encodeLog (bs.drop t) := by
  have h1 : encodeLog bs = encodeLog (bs.take t) ++ encodeLog (bs.drop t) := by
    rw [← encodeLog_append, List.take_append_drop]
  rw [← boundary_take]
  conv_lhs => rw [h1]
  rw [List.drop_left]

/-- A `Read` on a handle with new buffers whose raw cursor is on boundary `i`
of a well-formed log yields record `i`. -/
theorem File.Read_at_boundary {α : Type} (c : Serializable α)
    (hrt : ∀ (o v : α) (b : List Byte), c.Marshal v = Res.ok b → c.Unmarshal o b = Res.ok v)
    (vs : List α) (bs : List (List Byte))
    (hv : List.Forall₂ (fun v b => c.Marshal v = Res.ok b ∧ b.length < 2 ^ 32) vs bs)
    (i : Nat) (v : α) (hi : vs[i]? = some v) (g : File) (obj : α)
    (hd : g.disk = encodeLog bs) (hp : g.pos = boundary bs i) (hr : g.rbuf = []) :
    (File.Read c g obj).2 = Res.ok v := by
  have hlen := hv.length_eq
  have hil : i < vs.length := by
    by_contra hc
    rw [List.getElem?_eq_none (by omega)] at hi
    cases hi
  have hib : i < bs.length := by omega
  have hdrop := List.forall₂_drop i hv
  rw [List.drop_eq_getElem_cons hil, List.drop_eq_getElem_cons hib] at hdrop
  cases hdrop with
  | cons h1 _ =>
    have hvi : vs[i] = v := by
      rw [List.getElem?_eq_getElem hil] at hi
      exact Option.some.inj hi
    rw [hvi] at h1
    obtain ⟨f1, e1, -, -, -⟩ := File.Read_log c hrt g obj v bs[i] (bs.drop (i + 1)) h1.1 h1.2
      (by rw [File.stream, hr, List.nil_append, hd, hp, drop_encodeLog bs i,
        List.drop_eq_getElem_cons hib])
    rw [e1]

/-- The two routes of C4 on a log of records shorter than 2^32 - 8 bytes:
from any handle state on the log, `Seek(0, 2); Seek(-(n-i), 1); Read` and
`Seek(0, 0); Seek(i, 1); Read` all return nil and both yield record `i`. -/
theorem File.Seek_symmetry_small {α : Type} (c : Serializable α)
    (hrt : ∀ (o v : α) (b : List Byte), c.Marshal v = Res.ok b → c.Unmarshal o b = Res.ok v)
    (vs : List α) (bs : List (List Byte))
    (hv : List.Forall₂ (fun v b => c.Marshal v = Res.ok b ∧ b.length < 2 ^ 32) vs bs)
    (hs : ∀ b ∈ bs, b.length + 8 < 2 ^ 32) (hlen : (encodeLog bs).length < 2 ^ 63)
    (i : Nat) (v : α) (hi : vs[i]? = some v) (f : File) (obj : α)
    (hd : f.disk = encodeLog bs) :
    ((File.Seek f 0 2).2 = none ∧
     (File.Seek (File.Seek f 0 2).1 (-((bs.length : Int) - i)) 1).2 = none ∧
     (File.Read c (File.Seek (File.Seek f 0 2).1 (-((bs.length : Int) - i)) 1).1 obj).2 =
       Res.ok v) ∧
    ((File.Seek f 0 0).2 = none ∧
     (File.Seek (File.Seek f 0 0).1 i 1).2 = none ∧
     (File.Read c (File.Seek (File.Seek f 0 0).1 i 1).1 obj).2 = Res.ok v) := by
  have hil : i < bs.length := by
    rw [← hv.length_eq]
    by_contra hc
    rw [List.getElem?_eq_none (by omega)] at hi
    cases hi
  constructor
  · rw [File.Seek_zero_end]
    have h := File.Seek_ok bs hs hlen
      { disk := f.disk, pos := f.disk.length, rbuf := [], wbuf := [] } bs.length i
      (-((bs.length : Int) - i)) 1 hd (by simp only [hd, boundary_length]) (Nat.le_refl _)
      (Or.inr (Or.inl rfl)) (by simp) (Nat.le_of_lt hil)
    simp only [] at h ⊢
    rw [h]
    exact ⟨trivial, rfl, File.Read_at_boundary c hrt vs bs hv i v hi _ obj hd rfl rfl⟩
  · rw [File.Seek_zero_start]
    have h := File.Seek_ok bs hs hlen
      { disk := f.disk, pos := 0, rbuf := [], wbuf := [] } 0 i (i : Int) 1 hd
      (boundary_zero bs).symm (Nat.zero_le _) (Or.inr (Or.inl rfl)) (by simp)
      (Nat.le_of_lt hil)
    simp only [] at h ⊢
    rw [h]
    exact ⟨trivial, rfl, File.Read_at_boundary c hrt vs bs hv i v hi _ obj hd rfl rfl⟩

/-- The routes of C2 for an encoding shorter than 2^32 - 8 bytes: after
`Write(v)` at raw cursor `p`, `Seek(-1, 1)` returns nil and the `Read` yields
`v`. -/
theorem File.Write_Seek_Read_small {α : Type} (c : Serializable α)
    (hrt : ∀ (o v : α) (b : List Byte), c.Marshal v = Res.ok b → c.Unmarshal o b = Res.ok v)
    (f : File) (v obj : α) (b : List Byte) (hm : c.Marshal v = Res.ok b)
    (hb : b.length + 8 < 2 ^ 32) (hw : f.wbuf = []) :
    (File.Seek (File.Write c f v).1 (-1) 1).2 = none ∧
    (File.Seek (File.Write c f v).1 (-1) 1).1.pos = f.pos ∧
    (File.Read c (File.Seek (File.Write c f v).1 (-1) 1).1 obj).2 = Res.ok v := by
  rw [File.Write_eq c f v b hm hw]
  simp only [fpWrite, frame_ne_nil, if_false]
  have hP : (f.disk.take f.pos ++ List.replicate (f.pos - f.disk.length) (0 : Byte)).length
      = f.pos := by
    simp only [List.length_append, List.length_take, List.length_replicate]
    omega
  have h1 := File.seekOne_backward
    { f with disk := writeAt f.disk f.pos (frame b), pos := f.pos + (frame b).length }
    (f.disk.take f.pos ++ List.replicate (f.pos - f.disk.length) (0 : Byte)) b
    (f.disk.drop (f.pos + (frame b).length)) (by simp only [writeAt, List.append_assoc])
    (by rw [hP, frame_length]; simp only []; omega) (by omega)
  rw [hP, Size_of_lt _ hb] at h1
  have h3 : (if (-1 : Int) < 0 then toInt64 (- -1) else -1).toNat = 1 := by decide
  have h2 : File.Seek
      { f with disk := writeAt f.disk f.pos (frame b), pos := f.pos + (frame b).length }
      (-1) 1 =
        ({ disk := writeAt f.disk f.pos (frame b), pos := f.pos, rbuf := [], wbuf := [] },
          none) := by
    simp only [File.Seek, if_neg (show ¬ ((1 : Int) = 0) by decide), if_true]
    rw [h3, if_pos (by decide), File.seekLoop, h1]
    simp only [File.seekLoop]
    have : f.pos + 8 + b.length - (b.length + 8) = f.pos := by omega
    rw [this]
  rw [h2]
  refine ⟨rfl, rfl, ?_⟩
  obtain ⟨f1, e1, -, -, -⟩ := File.Read_frame c
    { disk := writeAt f.disk f.pos (frame b), pos := f.pos, rbuf := [], wbuf := [] } obj
    (putUint32 (Size b.length)) b (putUint32 (Size b.length))
    (f.disk.drop (f.pos + (frame b).length))
    (putUint32_length _)
    ((getUint32_putUint32 _ (Nat.mod_lt _ (by norm_num))).trans (Size_of_lt _ (by omega)))
    (putUint32_length _) (by simp only [File.stream, List.nil_append, drop_writeAt, frame])
  rw [e1]
  exact hrt obj v b hm

/-- The first route of C2, for every encoding shorter than 2^32 bytes: after
`Write(v)` at raw cursor 0, a `Read` on a newly opened handle yields `v`. -/
theorem File.Write_reopen_Read {α : Type} (c : Serializable α)
    (hrt : ∀ (o v : α) (b : List Byte), c.Marshal v = Res.ok b → c.Unmarshal o b = Res.ok v)
    (f : File) (v obj : α) (b : List Byte) (hm : c.Marshal v = Res.ok b)
    (hb : b.length < 2 ^ 32) (hw : f.wbuf = []) (hp : f.pos = 0) :
    (File.Read c (NewFile (File.Write c f v).1.disk) obj).2 = Res.ok v := by
  rw [File.Write_eq c f v b hm hw]
  simp only [fpWrite, frame_ne_nil, if_false, hp]
  obtain ⟨f1, e1, -, -, -⟩ := File.Read_frame c (NewFile (writeAt f.disk 0 (frame b))) obj
    (putUint32 (Size b.length)) b (putUint32 (Size b.length))
    (f.disk.drop (0 + (frame b).length))
    (putUint32_length _)
    ((getUint32_putUint32 _ (Nat.mod_lt _ (by norm_num))).trans (Size_of_lt _ hb))
    (putUint32_length _)
    (by
      have := drop_writeAt f.disk 0 (frame b)
      simp only [List.drop_zero] at this
      simp only [File.stream, NewFile, List.nil_append, List.drop_zero]
      rw [this]
      simp only [frame])
  rw [e1]
  exact hrt obj v b hm

/-! ## Errors of the codec, invalid whence, the trailer -/

/-- C14. Codec errors pass through unmodified, each half on its own.
Whenever `Marshal` of the object returns an error `e`, `File.Write` returns
exactly `e` and the whole state (file bytes, raw cursor, buffers) is as
before.  Whenever the stream of the handle starts with the complete frame of
a body `b` and `Unmarshal` returns an error `e` on `b`, `File.Read` returns
exactly `e`. -/
theorem File.codec_errors_pass {α : Type} (c : Serializable α) :
    (∀ (f : File) (obj : α) (e : Err),
      c.Marshal obj = Res.error e → File.Write c f obj = (f, some e)) ∧
    (∀ (g : File) (obj : α) (e : Err) (b rest : List Byte),
      g.stream = frame b ++ rest → b.length < 2 ^ 32 → c.Unmarshal obj b = Res.error e →
      (File.Read c g obj).2 = Res.error e) := by
  constructor
  · intro f obj e hm
    simp only [File.Write, hm]
  · intro g obj e b rest hs hb hu
    obtain ⟨f1, e1, -, -, -⟩ := File.Read_frame c g obj
      (putUint32 (Size b.length)) b (putUint32 (Size b.length)) rest
      (putUint32_length _)
      ((getUint32_putUint32 _ (Nat.mod_lt _ (by norm_num))).trans (Size_of_lt _ hb))
      (putUint32_length _) (by rw [hs, frame])
    rw [e1, hu]

theorem File.codec_errors_pass_witness :
    File.Write failCodec { disk := [1, 2], pos := 1, rbuf := [2], wbuf := [] } [3] =
      ({ disk := [1, 2], pos := 1, rbuf := [2], wbuf := [] }, some (Err.codec 1)) ∧
    (File.Read rejectCodec (NewFile (frame [3] ++ [9])) []).2 = Res.error (Err.codec 2) :=
  ⟨(File.codec_errors_pass failCodec).1 { disk := [1, 2], pos := 1, rbuf := [2], wbuf := [] }
      [3] (Err.codec 1) rfl,
   (File.codec_errors_pass rejectCodec).2 (NewFile (frame [3] ++ [9])) [] (Err.codec 2)
      [3] [9] (by decide) (by decide) rfl⟩

/-- C15. An invalid whence is rejected without effect: for every whence
other than 0, 1 and 2 and every offset, `File.Seek` returns the error
"invalid argument for whence" and the state (raw cursor, file bytes, both
buffers) is exactly as before the call. -/
theorem File.Seek_invalid_whence (f : File) (offset whence : Int)
    (h0 : whence ≠ 0) (h1 : whence ≠ 1) (h2 : whence ≠ 2) :
    File.Seek f offset whence = (f, some Err.invalidWhence) := by
  simp only [File.Seek, if_neg h0, if_neg h1, if_neg h2]

theorem File.Seek_invalid_whence_witness :
    File.Seek { disk := [1, 2, 3], pos := 2, rbuf := [3], wbuf := [4] } 5 3 =
      ({ disk := [1, 2, 3], pos := 2, rbuf := [3], wbuf := [4] }, some Err.invalidWhence) :=
  File.Seek_invalid_whence { disk := [1, 2, 3], pos := 2, rbuf := [3], wbuf := [4] } 5 3
    (by decide) (by decide) (by decide)

/-- C19. The trailer is not validated by `Read`: on a stream that starts
with the little-endian length of `b` (shorter than 2^32 bytes), then `b`,
then any four bytes `t`, `File.Read` returns what `Unmarshal` returns on
exactly `b`, and it consumes exactly `8 + len(b)` bytes, so that the stream
continues right after `t`. -/
theorem File.Read_ignores_tail {α : Type} (c : Serializable α) (f : File) (obj : α)
    (b t rest : List Byte) (hb : b.length < 2 ^ 32) (ht : t.length = 4)
    (hs : f.stream = putUint32 b.length ++ b ++ t ++ rest) :
    (File.Read c f obj).2 = c.Unmarshal obj b ∧
    (File.Read c f obj).1.stream = rest ∧
    f.stream.length = 8 + b.length + (File.Read c f obj).1.stream.length := by
  obtain ⟨f1, e, s1, -, -⟩ := File.Read_frame c f obj (putUint32 b.length) b t rest
    (putUint32_length _) (getUint32_putUint32 _ hb) ht hs
  rw [e]
  refine ⟨rfl, s1, ?_⟩
  simp only [s1, hs, List.length_append, putUint32_length, ht]
  omega

theorem File.Read_ignores_tail_witness :
    (File.Read rawCodec (NewFile (putUint32 2 ++ [1, 2] ++ [9, 9, 9, 9] ++ [5])) []).2 =
      rawCodec.Unmarshal [] [1, 2] ∧
    (File.Read rawCodec (NewFile (putUint32 2 ++ [1, 2] ++ [9, 9, 9, 9] ++ [5])) []).1.stream
      = [5] ∧
    (NewFile (putUint32 2 ++ [1, 2] ++ [9, 9, 9, 9] ++ [5])).stream.length =
      8 + [1, 2].length +
        (File.Read rawCodec
          (NewFile (putUint32 2 ++ [1, 2] ++ [9, 9, 9, 9] ++ [5])) []).1.stream.length :=
  File.Read_ignores_tail rawCodec (NewFile (putUint32 2 ++ [1, 2] ++ [9, 9, 9, 9] ++ [5])) []
    [1, 2] [9, 9, 9, 9] [5] (by decide) rfl rfl

/-! ## ReadAll and a failing Read -/

/-- The loop of `ReadAll` ends with the error of the first `Read` that fails
with an error other than `io.EOF`. -/
theorem readAllLoop_error {α : Type} (read : File → α → File × Res α) (zero : α)
    (sliceT objT : GoType) (fuel : Nat) (f f1 : File) (slice : List α) (e : Err)
    (hr : read f zero = (f1, Res.error e)) (he : e ≠ Err.EOF) :
    readAllLoop read zero sliceT objT (fuel + 1) f slice = (f1, slice, Ret.err e) := by
  simp only [readAllLoop, hr, if_neg he]

/-- Unless `ReadAll` returns nil, the slice `addr` points to is as before the call. -/
theorem ReadAll_keeps_dst {α : Type} (methods : GoType → Option (Serializable α)) (zero : α)
    (addrT : GoType) (f : File) (dst : List α) :
    (ReadAll methods zero addrT f dst).2.2 = Ret.nil ∨
    (ReadAll methods zero addrT f dst).2.1 = dst := by
  unfold ReadAll
  repeat' split
  all_goals first | exact Or.inr rfl | exact Or.inl rfl

/-- C11 on the code, at a log whose first record is complete and whose
second frame is cut inside the head: the first `Read` yields the record and
the second fails with `io.ErrUnexpectedEOF`, before `io.EOF` is reached;
`ReadAll` into the destination of the tests does not return that error, it
panics (before the first `Read`).  The destination is unchanged. -/
theorem ReadAll_truncated_panics :
    (readN rawCodec [] 1 (NewFile (frame [1] ++ [9, 9]))).2 = Res.ok [[1]] ∧
    (readN rawCodec [] 2 (NewFile (frame [1] ++ [9, 9]))).2 =
      Res.error Err.ErrUnexpectedEOF ∧
    ReadAll (preAcceptMethods rawCodec) [] preAcceptDst (NewFile (frame [1] ++ [9, 9])) [[7]] =
      (NewFile (frame [1] ++ [9, 9]), [[7]], Ret.panic) := by
  decide

/-! ## Single steps for every 32-bit length -/

/-- A forward step reads the four bytes at the raw cursor as `L` and moves
the cursor to `p + 4 + Size(L + 4)`. -/
theorem File.seekOne_forward_raw (f : File) (h : f.pos + 4 ≤ f.disk.length) :
    f.seekOne 1 =
      ({ f with pos := f.pos + 4 + Size (getUint32 ((f.disk.drop f.pos).take 4) + 4) },
        none) := by
  unfold File.seekOne
  rw [if_neg (by decide), if_neg (by decide)]
  simp only []
  rw [binaryRead_fp_ok f h]
  simp only [if_true, fpSeek_cur_nonneg]

/-- A forward step over a head that announces fewer than 2^32 - 4 bytes
moves the raw cursor by `8 + L`. -/
theorem File.seekOne_forward_small (f : File) (h : f.pos + 4 ≤ f.disk.length)
    (hL : getUint32 ((f.disk.drop f.pos).take 4) + 4 < 2 ^ 32) :
    f.seekOne 1 =
      ({ f with pos := f.pos + 8 + getUint32 ((f.disk.drop f.pos).take 4) }, none) := by
  rw [File.seekOne_forward_raw f h, Size_of_lt _ hL]
  have : f.pos + 4 + (getUint32 ((f.disk.drop f.pos).take 4) + 4) =
      f.pos + 8 + getUint32 ((f.disk.drop f.pos).take 4) := by omega
  rw [this]

theorem File.seekOne_back_big (b : List Byte) (hb : b.length = 4294967295) :
    File.seekOne { disk := frame b, pos := 4294967303, rbuf := [], wbuf := [] } (-1) =
      ({ disk := frame b, pos := 4294967296, rbuf := [], wbuf := [] }, none) := by
  have h1 := File.seekOne_backward
    { disk := frame b, pos := 4294967303, rbuf := [], wbuf := [] } [] b [] (by simp)
    (by simp only [hb]; rfl) (by rw [hb]; norm_num)
  have hS : Size (b.length + 8) = 7 := by rw [hb]; decide
  rw [hS, hb] at h1
  exact h1

/-- C17 on the code, at `L = 2^32 - 1`.  Forward, on a file whose four bytes
at `p = 0` are `ff ff ff ff`: `seekOne` returns nil with the raw cursor at
byte 7, not at `p + 8 + L = 4294967303`.  Backward, at the end
`p = 4294967303` of the frame of a body of `L` bytes: `seekOne` returns nil
with the raw cursor at byte 2^32, not at `p - 8 - L = 0`. -/
theorem File.seekOne_bigBody :
    getUint32 [255, 255, 255, 255] = 4294967295 ∧
    File.seekOne (NewFile [255, 255, 255, 255]) 1 =
      ({ disk := [255, 255, 255, 255], pos := 7, rbuf := [], wbuf := [] }, none) ∧
    File.seekOne { disk := frame bigBody, pos := 4294967303, rbuf := [], wbuf := [] } (-1) =
      ({ disk := frame bigBody, pos := 4294967296, rbuf := [], wbuf := [] }, none) :=
  ⟨by decide, by decide, File.seekOne_back_big bigBody bigBody_length⟩

/-! ## Seek after a buffered Read -/

/-- C18 on the code, at the log of the two records `[1]` and `[2]`, `k = 0`:
`Seek(0, 0)` returns nil, the first `Read` yields `r_0` and leaves the raw
cursor at the end of the file (byte 18, the reader of `rw` has fetched the
whole file), `Seek(0, 1)` returns nil and keeps that raw cursor, and the
second `Read` returns `io.EOF` instead of `r_1`. -/
theorem File.Seek_cur_after_Read :
    (File.Seek (NewFile (encodeLog [[1], [2]])) 0 0).2 = none ∧
    (File.Read rawCodec (File.Seek (NewFile (encodeLog [[1], [2]])) 0 0).1 []).2 =
      Res.ok [1] ∧
    (File.Read rawCodec (File.Seek (NewFile (encodeLog [[1], [2]])) 0 0).1 []).1.pos = 18 ∧
    File.Seek (File.Read rawCodec (File.Seek (NewFile (encodeLog [[1], [2]])) 0 0).1 []).1 0 1 =
      ({ disk := encodeLog [[1], [2]], pos := 18, rbuf := [], wbuf := [] }, none) ∧
    (File.Read rawCodec
      (File.Seek (File.Read rawCodec
        (File.Seek (NewFile (encodeLog [[1], [2]])) 0 0).1 []).1 0 1).1 []).2 =
      Res.error Err.EOF := by
  decide

/-! ## The simple store -/

theorem Store.Write_effect {α : Type} (c : Serializable α) (s : File) (obj : α) (b : List Byte)
    (hm : c.Marshal obj = Res.ok b) (hw : s.wbuf = []) :
    Store.Write c s obj = (fpWrite s (storeFrame b), none) := by
  simp only [Store.Write, hm, bufFlush_bufWrite, bufFlush_of_empty s hw, fpWrite_append,
    storeFrame]

theorem storeFrame_ne_nil (b : List Byte) : storeFrame b ≠ [] := by
  intro h
  have := congrArg List.length h
  simp [storeFrame, putUint32_length] at this

/-- Appending records with `Store.Write` at the end of the stream. -/
theorem Store.writeAll_stream {α : Type} (c : Serializable α) :
    ∀ (vs : List α) (bs : List (List Byte)) (s : File),
    List.Forall₂ (fun v b => c.Marshal v = Res.ok b ∧ b.length < 2 ^ 32) vs bs →
    s.pos = s.disk.length → s.wbuf = [] →
    Store.writeAll c s vs =
      ({ disk := s.disk ++ encodeStore bs, pos := (s.disk ++ encodeStore bs).length,
         rbuf := s.rbuf, wbuf := [] }, none) := by
  intro vs
  induction vs with
  | nil =>
    intro bs s h hp hw
    cases h
    cases s
    simp_all [Store.writeAll, encodeStore]
  | cons v vs ih =>
    intro bs s h hp hw
    cases h with
    | cons hv hrest =>
      rename_i b bs2
      have h1 := Store.Write_effect c s v b hv.1 hw
      have h2 := ih bs2 (fpWrite s (storeFrame b)) hrest
        (by simp [fpWrite, storeFrame_ne_nil, hp, writeAt_end])
        (by rw [fpWrite_wbuf]; exact hw)
      rw [Store.writeAll, h1]
      simp only []
      rw [h2]
      simp [fpWrite, storeFrame_ne_nil, hp, writeAt_end, encodeStore]

/-- A `Store.Read` on a stream that starts with the record of `b`. -/
theorem Store.Read_record {α : Type} (c : Serializable α) (s : File) (obj : α)
    (b rest : List Byte) (hb : b.length < 2 ^ 32) (hs : s.stream = storeFrame b ++ rest) :
    ∃ s1, Store.Read c s obj = (s1, c.Unmarshal obj b) ∧ s1.stream = rest := by
  have hh : (putUint32 (Size b.length)).length = 4 := putUint32_length _
  have hs' : s.stream = putUint32 (Size b.length) ++ (b ++ rest) := by
    rw [hs, storeFrame, List.append_assoc]
  obtain ⟨s1, e1, t1, -, -⟩ := binaryRead_buf_ok s (by simp [hs', hh])
  have hk : getUint32 (s.stream.take 4) = b.length := by
    rw [hs', List.take_left' hh, Size_of_lt _ hb, getUint32_putUint32 _ hb]
  have hs1 : s1.stream = b ++ rest := by rw [t1, hs', List.drop_left' hh]
  obtain ⟨s2, e2, t2, -, -⟩ := readFull_buf_ok s1 b.length (by simp [hs1])
  refine ⟨s2, ?_, by rw [t2, hs1, List.drop_left]⟩
  simp only [Store.Read, e1, hk, e2, hs1, List.take_left]

/-- A `Store.Read` at the end of the stream returns `io.EOF`. -/
theorem Store.Read_end_EOF {α : Type} (c : Serializable α) (s : File) (obj : α)
    (hs : s.stream = []) : (Store.Read c s obj).2 = Res.error Err.EOF := by
  have h1 := binaryRead_buf_short s (by rw [hs]; decide)
  unfold Store.Read
  cases hr : binaryRead bufRead s with
  | mk s1 r =>
    rw [hr] at h1
    simp only [] at h1
    subst h1
    simp [hs]

/-- The loop of `ReadAll` when the objects can be appended to the slice and
`ok f vs` says that the stream of `f` holds the records of `vs` and nothing
else: the loop collects `vs` in order and ends at `io.EOF`. -/
theorem readAllLoop_collect {α : Type} (read : File → α → File × Res α) (zero : α)
    (sliceT objT : GoType) (ht : sliceT.Elem = some objT) (ok : File → List α → Prop)
    (hstep : ∀ f v vs, ok f (v :: vs) → ∃ f1, read f zero = (f1, Res.ok v) ∧ ok f1 vs)
    (hend : ∀ f, ok f [] → (read f zero).2 = Res.error Err.EOF) :
    ∀ (vs : List α) (fuel : Nat) (f : File) (acc : List α), ok f vs → vs.length < fuel →
    (readAllLoop read zero sliceT objT fuel f acc).2 = (acc ++ vs, Ret.nil) := by
  intro vs
  induction vs with
  | nil =>
    intro fuel f acc h hf
    obtain ⟨k, rfl⟩ : ∃ k, fuel = k + 1 := ⟨fuel - 1, by simp at hf; omega⟩
    have he := hend f h
    cases hr : read f zero with
    | mk f1 r =>
      rw [hr] at he
      simp only [] at he
      subst he
      simp [readAllLoop, hr]
  | cons v vs ih =>
    intro fuel f acc h hf
    obtain ⟨k, rfl⟩ : ∃ k, fuel = k + 1 := ⟨fuel - 1, by simp at hf; omega⟩
    obtain ⟨f1, e1, h1⟩ := hstep f v vs h
    have := ih k f1 (acc ++ [v]) h1 (by simp at hf; omega)
    simp only [readAllLoop, e1, ht, if_true, this, List.append_assoc, List.singleton_append]

theorem encodeStore_length_ge (bs : List (List Byte)) :
    bs.length ≤ (encodeStore bs).length := by
  induction bs with
  | nil => simp
  | cons b bs ih =>
    simp only [encodeStore, storeFrame, List.length_cons, List.length_append, putUint32_length]
    omega

/-- C16. The simple store round-trips a sequence: for a codec with
`Unmarshal(Marshal(v)) = v` and values `vs` (any number, also none) whose
encodings are shorter than 2^32 bytes, the successive calls of `Store.Write`
on an empty stream all return nil, and `ReadAll` on a new `Store` over the
bytes they produced, with a destination of type `*[]*T` where `*T` has the
methods of the codec, returns nil and stores exactly `vs`, in order. -/
theorem Store.roundtrip {α : Type} (c : Serializable α)
    (hrt : ∀ (o v : α) (b : List Byte), c.Marshal v = Res.ok b → c.Unmarshal o b = Res.ok v)
    (methods : GoType → Option (Serializable α)) (zero : α) (t : GoType)
    (hm : methods t = some c) (vs : List α) (bs : List (List Byte))
    (hv : List.Forall₂ (fun v b => c.Marshal v = Res.ok b ∧ b.length < 2 ^ 32) vs bs)
    (dst : List α) :
    (Store.writeAll c (NewFile []) vs).2 = none ∧
    (Store.ReadAll methods zero (GoType.ptr (GoType.slice (GoType.ptr t)))
      (NewFile (Store.writeAll c (NewFile []) vs).1.disk) dst).2 = (vs, Ret.nil) := by
  have hw := Store.writeAll_stream c vs bs (NewFile []) hv rfl rfl
  simp only [NewFile, List.nil_append] at hw
  simp only [NewFile]
  rw [hw]
  refine ⟨rfl, ?_⟩
  have hloop := readAllLoop_collect (Store.Read c) zero (GoType.slice (GoType.ptr t))
    (GoType.ptr t) rfl
    (fun f vs => ∃ bs, List.Forall₂ (fun v b => c.Marshal v = Res.ok b ∧ b.length < 2 ^ 32)
      vs bs ∧ f.stream = encodeStore bs)
    (by
      rintro f v vs ⟨bs, h, hs⟩
      cases h with
      | cons hv1 hrest =>
        rename_i b bs2
        obtain ⟨s1, e1, t1⟩ := Store.Read_record c f zero b (encodeStore bs2) hv1.2
          (by rw [hs, encodeStore])
        exact ⟨s1, by rw [e1, hrt zero v b hv1.1], bs2, hrest, t1⟩)
    (by
      rintro f ⟨bs, h, hs⟩
      cases h
      exact Store.Read_end_EOF c f zero hs)
    vs ((encodeStore bs).length + 1)
    { disk := encodeStore bs, pos := 0, rbuf := [], wbuf := [] } []
    ⟨bs, hv, by simp [File.stream]⟩
    (by have := encodeStore_length_ge bs; have := hv.length_eq; omega)
  simp only [Store.ReadAll, GoType.isPtr, GoType.isSlice, GoType.Elem, hm, File.stream,
    List.nil_append, List.drop_zero, Bool.not_true, if_true]
  cases hq : readAllLoop (Store.Read c) zero (GoType.slice (GoType.ptr t)) (GoType.ptr t)
      ((encodeStore bs).length + 1) { disk := encodeStore bs, pos := 0, rbuf := [], wbuf := [] }
      [] with
  | mk s1 r =>
    rw [hq] at hloop
    simp only [List.nil_append] at hloop
    subst hloop
    simp

theorem Store.roundtrip_witness :
    (Store.writeAll rawCodec (NewFile []) [[1], [], [2, 3]]).2 = none ∧
    (Store.ReadAll (preAcceptMethods rawCodec) []
      (GoType.ptr (GoType.slice (GoType.ptr (GoType.struct "example.PreAccept"))))
      (NewFile (Store.writeAll rawCodec (NewFile []) [[1], [], [2, 3]]).1.disk) [[9]]).2 =
      ([[1], [], [2, 3]], Ret.nil) :=
  Store.roundtrip rawCodec (fun _ _ _ h => by cases h; rfl) (preAcceptMethods rawCodec) []
    (GoType.struct "example.PreAccept") rfl [[1], [], [2, 3]] [[1], [], [2, 3]]
    (by
      refine List.Forall₂.cons ⟨rfl, by decide⟩ (List.Forall₂.cons ⟨rfl, by decide⟩
        (List.Forall₂.cons ⟨rfl, by decide⟩ List.Forall₂.nil)))
    [[9]]

/-- With a destination of type `*[]T` the loop of `Store.ReadAll` cannot
append the object it has read: the call panics at the first record. -/
theorem Store.ReadAll_nonptr_panics :
    (Store.ReadAll (preAcceptMethods rawCodec) []
      (GoType.ptr (GoType.slice (GoType.struct "example.PreAccept")))
      (NewFile (encodeStore [[1]])) [[9]]).2 = ([[9]], Ret.panic) := by
  decide

/-! ## A failed Seek -/

/-- C20 for records shorter than 2^32 - 8 bytes: on a handle on a log of `n`
records, whatever the raw cursor and the buffers are, `Seek(k, 0)` with
`k > n` returns `io.EOF`, leaves the raw cursor at the end of the file and
leaves the buffers as they were. -/
theorem File.Seek_past_end_small (bs : List (List Byte))
    (hs : ∀ b ∈ bs, b.length + 8 < 2 ^ 32) (f : File) (k : Nat)
    (hd : f.disk = encodeLog bs) (hk : bs.length < k) :
    File.Seek f (k : Int) 0 = ({ f with pos := (encodeLog bs).length }, some Err.EOF) := by
  have h := File.seekLoop_forward_fail bs hs k 0 { f with pos := 0 } hd
    (boundary_zero bs).symm (Nat.zero_le _) (by omega)
  have hneg : ¬ ((k : Int) < 0) := by omega
  simp only [File.Seek, if_true, fpSeek_start, if_neg hneg, Int.toNat_ofNat]
  rw [h]

theorem getElem?_bigBody (i : Nat) (h : i < 4294967295) : bigBody[i]? = some 0 := by
  unfold bigBody
  rw [List.getElem?_replicate, if_pos h]

theorem take_drop_of_getElem? (b : List Byte) (h3 : b[3]? = some 0) (h4 : b[4]? = some 0)
    (h5 : b[5]? = some 0) (h6 : b[6]? = some 0) : (b.drop 3).take 4 = [0, 0, 0, 0] := by
  apply List.ext_getElem?
  intro i
  rw [List.getElem?_take]
  by_cases hi : i < 4
  · rw [if_pos hi, List.getElem?_drop]
    have : i = 0 ∨ i = 1 ∨ i = 2 ∨ i = 3 := by omega
    rcases this with rfl | rfl | rfl | rfl <;> simp [h3, h4, h5, h6]
  · rw [if_neg hi]
    simp
    omega

/-- Two forward steps from the start of a file that holds one frame whose
body has 2^32 - 1 bytes, the bytes 3 to 6 of the body being zero. -/
theorem File.Seek_two_big (b : List Byte) (hb : b.length = 4294967295)
    (hz : (b.drop 3).take 4 = [0, 0, 0, 0]) :
    File.Seek (NewFile (encodeLog [b])) 2 0 =
      ({ disk := encodeLog [b], pos := 15, rbuf := [], wbuf := [] }, none) := by
  have hlen : (encodeLog [b]).length = 4294967303 := by
    rw [encodeLog_single, frame_big_length b hb]
  have h1 := File.seekOne_forward { disk := encodeLog [b], pos := 0, rbuf := [], wbuf := [] }
    [] b [] (by simp [encodeLog]) rfl (by rw [hb]; norm_num)
  have hS : Size (b.length + 4) = 3 := by rw [hb]; decide
  rw [hS] at h1
  have hd7 : ((encodeLog [b]).drop 7).take 4 = [0, 0, 0, 0] := by
    have e : (7 : Nat) = 4 + 3 := rfl
    rw [encodeLog_single, frame, List.append_assoc, e, drop_add_drop,
      List.drop_left' (putUint32_length _), List.drop_append_of_le_length (by rw [hb]; norm_num),
      List.take_append_of_le_length (by rw [List.length_drop, hb]; norm_num), hz]
  have h2 := File.seekOne_forward_raw
    { disk := encodeLog [b], pos := 7, rbuf := [], wbuf := [] }
    (by simp only [hlen]; norm_num)
  simp only [hd7] at h2
  have hg : Size (getUint32 [0, 0, 0, 0] + 4) = 4 := by decide
  rw [hg] at h2
  have h3 : (if (2 : Int) < 0 then toInt64 (-2) else 2).toNat = 2 := by decide
  simp only [File.Seek, if_true, fpSeek_start, NewFile]
  rw [h3, if_neg (by decide), File.seekLoop]
  simp only [List.length_nil, Nat.zero_add] at h1
  rw [h1]
  simp only []
  rw [File.seekLoop, h2]
  simp [File.seekLoop]

/-- C20 on the code, at the log of one record of 2^32 - 1 zero bytes
(`n = 1`) and `k = 2`: `Seek(2, 0)` returns nil, not an error, and leaves the
raw cursor at byte 15, inside the record. -/
theorem File.Seek_past_end_bigBody :
    File.Seek (NewFile (encodeLog [bigBody])) 2 0 =
      ({ disk := encodeLog [bigBody], pos := 15, rbuf := [], wbuf := [] }, none) :=
  File.Seek_two_big bigBody bigBody_length
    (take_drop_of_getElem? bigBody (getElem?_bigBody 3 (by norm_num))
      (getElem?_bigBody 4 (by norm_num)) (getElem?_bigBody 5 (by norm_num))
      (getElem?_bigBody 6 (by norm_num)))

/-! ## Overwriting a record -/

theorem getUint32_Size (n : Nat) : getUint32 (putUint32 (Size n)) = Size n :=
  getUint32_putUint32 _ (Nat.mod_lt _ (by norm_num))

/-- Writing nine bytes at byte 7 of a file that starts with a four-byte head
and a body of at least twelve bytes: the bytes 3 to 11 of the body are replaced. -/
theorem writeAt_seven (h b post F : List Byte) (hh : h.length = 4) (hb : 12 ≤ b.length)
    (hF : F.length = 9) :
    writeAt (h ++ b ++ post) 7 F = h ++ (b.take 3 ++ F ++ b.drop 12) ++ post := by
  have e7 : (7 : Nat) = 4 + 3 := rfl
  have e16 : (7 + F.length : Nat) = 4 + 12 := by rw [hF]
  have ht : (h ++ b ++ post).take 7 = h ++ b.take 3 := by
    rw [List.append_assoc, e7, List.take_append_eq_append_take, hh,
      List.take_of_length_le (by omega), Nat.add_sub_cancel_left,
      List.take_append_of_le_length (by omega)]
  have hd : (h ++ b ++ post).drop (7 + F.length) = b.drop 12 ++ post := by
    rw [e16, List.append_assoc, drop_add_drop, List.drop_left' hh,
      List.drop_append_of_le_length hb]
  have hz : 7 - (h ++ b ++ post).length = 0 := by
    simp only [List.length_append, hh]; omega
  rw [writeAt, ht, hd, hz]
  simp only [List.replicate_zero, List.append_nil, List.append_assoc]

/-- A forward seek over a first record whose body has 2^32 - 1 bytes. -/
theorem File.Seek_forward_big_rest (b : List Byte) (hb : b.length = 4294967295)
    (bs : List (List Byte)) :
    File.Seek (NewFile (encodeLog (b :: bs))) 1 0 =
      ({ disk := encodeLog (b :: bs), pos := 7, rbuf := [], wbuf := [] }, none) := by
  have h1 := File.seekOne_forward { (NewFile (encodeLog (b :: bs))) with pos := 0 }
    [] b (encodeLog bs) (by simp [NewFile, encodeLog]) rfl (by rw [hb]; norm_num)
  have hS : Size (b.length + 4) = 3 := by rw [hb]; decide
  rw [hS] at h1
  have h3 : (if (1 : Int) < 0 then toInt64 (-1) else 1).toNat = 1 := by decide
  simp only [File.Seek, if_true, fpSeek_start]
  rw [h3, if_neg (by decide), File.seekLoop, h1]
  simp [File.seekLoop, NewFile]

/-- The route of C12 on a log whose record 0 has 2^32 - 1 bytes: `Seek(1, 0)`
and the `Write` of a one-byte value go to byte 7, and a `Read` from the start
of the file then yields the old body with its bytes 3 to 11 replaced. -/
theorem File.overwrite_big (b : List Byte) (hb : b.length = 4294967295) (x y : Byte) :
    File.Seek (NewFile (encodeLog [b, [x]])) 1 0 =
      ({ disk := encodeLog [b, [x]], pos := 7, rbuf := [], wbuf := [] }, none) ∧
    boundary [b, [x]] 1 = 4294967303 ∧
    File.Write rawCodec { disk := encodeLog [b, [x]], pos := 7, rbuf := [], wbuf := [] } [y] =
      ({ disk := writeAt (encodeLog [b, [x]]) 7 (frame [y]), pos := 16, rbuf := [],
         wbuf := [] }, none) ∧
    (File.Read rawCodec
      { disk := writeAt (encodeLog [b, [x]]) 7 (frame [y]), pos := 0, rbuf := [], wbuf := [] }
      []).2 = Res.ok (b.take 3 ++ frame [y] ++ b.drop 12) ∧
    (b.take 3 ++ frame [y] ++ b.drop 12)[3]? = some 1 := by
  have hF : (frame [y]).length = 9 := by rw [frame_length]; rfl
  refine ⟨File.Seek_forward_big_rest b hb [[x]], ?_, ?_, ?_, ?_⟩
  · have h := boundary_left_succ [] [[x]] b
    simp only [List.nil_append, List.length_nil, Nat.zero_add, encodeLog] at h
    rw [h, hb]
  · rw [File.Write_eq rawCodec _ [y] [y] rfl rfl]
    simp only [fpWrite, frame_ne_nil, if_false, hF]
  · have hD : encodeLog [b, [x]] =
        putUint32 (Size b.length) ++ b ++ (putUint32 (Size b.length) ++ encodeLog [[x]]) := by
      simp only [encodeLog, frame, List.append_assoc]
    have hw := writeAt_seven (putUint32 (Size b.length)) b
      (putUint32 (Size b.length) ++ encodeLog [[x]]) (frame [y]) (putUint32_length _)
      (by rw [hb]; norm_num) hF
    obtain ⟨f1, e1, -, -, -⟩ := File.Read_frame rawCodec
      { disk := writeAt (encodeLog [b, [x]]) 7 (frame [y]), pos := 0, rbuf := [], wbuf := [] }
      [] (putUint32 (Size b.length)) (b.take 3 ++ frame [y] ++ b.drop 12)
      (putUint32 (Size b.length)) (encodeLog [[x]]) (putUint32_length _)
      (by
        rw [getUint32_Size]
        simp only [List.length_append, List.length_take, List.length_drop, hF, hb]
        decide)
      (putUint32_length _)
      (by
        simp only [File.stream, List.nil_append, List.drop_zero]
        rw [hD, hw]
        simp only [List.append_assoc])
    rw [e1]
    rfl
  · rw [List.append_assoc, List.getElem?_append_right (by rw [List.length_take, hb]; decide)]
    have : 3 - (b.take 3).length = 0 := by rw [List.length_take, hb]; decide
    rw [this]
    rfl

/-- C12 on the code, at the log of a record `r_0` of 2^32 - 1 zero bytes and
a record `[1]`, `i = 1` and `w = [2]` (one byte, as `r_1`): `Seek(1, 0)`
returns nil with the raw cursor at byte 7 instead of byte 4294967303, `Write`
puts the frame of `w` there, inside `r_0`, and a `Read` from the start of
the file then yields a body whose byte 3 is 1, not `r_0`. -/
theorem File.overwrite_bigBody :
    File.Seek (NewFile (encodeLog [bigBody, [1]])) 1 0 =
      ({ disk := encodeLog [bigBody, [1]], pos := 7, rbuf := [], wbuf := [] }, none) ∧
    boundary [bigBody, [1]] 1 = 4294967303 ∧
    File.Write rawCodec
        { disk := encodeLog [bigBody, [1]], pos := 7, rbuf := [], wbuf := [] } [2] =
      ({ disk := writeAt (encodeLog [bigBody, [1]]) 7 (frame [2]), pos := 16, rbuf := [],
         wbuf := [] }, none) ∧
    (File.Read rawCodec
      { disk := writeAt (encodeLog [bigBody, [1]]) 7 (frame [2]), pos := 0, rbuf := [],
        wbuf := [] }
      []).2 = Res.ok (bigBody.take 3 ++ frame [2] ++ bigBody.drop 12) ∧
    (bigBody.take 3 ++ frame [2] ++ bigBody.drop 12)[3]? = some 1 :=
  File.overwrite_big bigBody bigBody_length 1 2

/-! ## Rewriting a log from front to back -/

/-- Forward steps over frames whose bodies are shorter than 2^32 - 4 bytes,
whatever follows the frames in the file. -/
theorem File.seekLoop_forward_rest (bs : List (List Byte)) (rest : List Byte)
    (hs : ∀ b ∈ bs, b.length + 4 < 2 ^ 32) : ∀ (k t : Nat) (f : File),
    f.disk = encodeLog bs ++ rest → f.pos = boundary bs t → t + k ≤ bs.length →
    File.seekLoop 1 k f = ({ f with pos := boundary bs (t + k) }, none) := by
  intro k
  induction k with
  | zero => intro t f _ hp _; simp [File.seekLoop, ← hp]
  | succ k ih =>
    intro t f hd hp hk
    obtain ⟨xs, b, ys, rfl, rfl⟩ := split_at bs t (by omega)
    have hb := hs b (by simp)
    have h1 := File.seekOne_forward f (encodeLog xs) b (encodeLog ys ++ rest)
      (by rw [hd, encodeLog_append, encodeLog]; simp only [List.append_assoc])
      (by rw [hp, boundary_left]) (by omega)
    rw [Size_of_lt _ hb] at h1
    have h2 := ih (xs.length + 1) { f with pos := (encodeLog xs).length + 4 + (b.length + 4) }
      hd (by rw [boundary_left_succ]; simp only []; omega) (by omega)
    rw [File.seekLoop, h1]
    simp only []
    rw [h2]
    simp only [Nat.add_assoc, Nat.add_comm 1 k]

/-- From the start of a file that begins with the frames of `bs`, `Seek(n, 1)`
with `n` the number of those frames reaches the byte after them. -/
theorem File.Seek_cur_forward_rest (bs : List (List Byte)) (rest : List Byte)
    (hs : ∀ b ∈ bs, b.length + 4 < 2 ^ 32) (f : File)
    (hd : f.disk = encodeLog bs ++ rest) (hp : f.pos = 0) :
    File.Seek f (bs.length : Int) 1 =
      ({ disk := f.disk, pos := (encodeLog bs).length, rbuf := [], wbuf := [] }, none) := by
  have h := File.seekLoop_forward_rest bs rest hs bs.length 0 f hd
    (by rw [hp, boundary_zero]) (by omega)
  have hneg : ¬ ((bs.length : Int) < 0) := by omega
  simp only [File.Seek, if_neg (show ¬ ((1 : Int) = 0) by decide), if_true, if_neg hneg,
    Int.toNat_ofNat]
  rw [h, Nat.zero_add, boundary_length]

theorem writeAt_after (a rest p : List Byte) :
    writeAt (a ++ rest) a.length p = a ++ p ++ rest.drop p.length := by
  rw [writeAt, List.take_left, drop_add_drop, List.drop_left]
  simp

/-- The loop of `TestSeekAndWrite` from record `ds.length` on, on a file that
begins with the frames of `ds`: every call returns nil, and the file then
begins with the frames of `ds` and of the values written. -/
theorem rewriteAll_log {α : Type} (c : Serializable α) :
    ∀ (ws : List α) (wbs ds : List (List Byte)) (f : File) (rest : List Byte),
    List.Forall₂ (fun v b => c.Marshal v = Res.ok b ∧ b.length + 4 < 2 ^ 32) ws wbs →
    (∀ b ∈ ds, b.length + 4 < 2 ^ 32) → f.disk = encodeLog ds ++ rest →
    ∃ f1 rest1, rewriteAll c ds.length f ws = (f1, none) ∧
      f1.disk = encodeLog (ds ++ wbs) ++ rest1 := by
  intro ws
  induction ws with
  | nil =>
    intro wbs ds f rest h _ hd
    cases h
    exact ⟨f, rest, rfl, by rw [List.append_nil, hd]⟩
  | cons w ws ih =>
    intro wbs ds f rest h hds hd
    cases h with
    | cons hw hrest =>
      rename_i b wbs2
      have h1 := File.Seek_zero_start f
      have h2 := File.Seek_cur_forward_rest ds rest hds
        { disk := f.disk, pos := 0, rbuf := [], wbuf := [] } hd rfl
      have h3 := File.Write_eq c
        { disk := f.disk, pos := (encodeLog ds).length, rbuf := [], wbuf := [] } w b hw.1 rfl
      have hds2 : ∀ x ∈ ds ++ [b], x.length + 4 < 2 ^ 32 := by
        intro x hx
        rcases List.mem_append.mp hx with hx | hx
        · exact hds x hx
        · rw [List.mem_singleton.mp hx]; exact hw.2
      obtain ⟨f1, rest1, e1, d1⟩ := ih wbs2 (ds ++ [b])
        (fpWrite { disk := f.disk, pos := (encodeLog ds).length, rbuf := [], wbuf := [] }
          (frame b))
        (rest.drop (frame b).length) hrest hds2
        (by
          simp only [fpWrite, frame_ne_nil, if_false, hd, writeAt_after, encodeLog_append,
            encodeLog, List.append_nil, List.append_assoc])
      refine ⟨f1, rest1, ?_, by rw [d1, List.append_assoc, List.singleton_append]⟩
      rw [List.length_append, List.length_singleton] at e1
      simp only [rewriteAll, Seek, Write, h1]
      simp only [] at h2
      rw [h2]
      simp only []
      rw [h3]
      simp only []
      exact e1

/-- Reading the first records of a stream that begins with the frames of a log. -/
theorem readN_log_rest {α : Type} (c : Serializable α)
    (hrt : ∀ (o v : α) (b : List Byte), c.Marshal v = Res.ok b → c.Unmarshal o b = Res.ok v)
    (zero : α) : ∀ (vs : List α) (bs : List (List Byte)) (f : File) (rest : List Byte),
    List.Forall₂ (fun v b => c.Marshal v = Res.ok b ∧ b.length < 2 ^ 32) vs bs →
    f.stream = encodeLog bs ++ rest →
    ∃ f1, readN c zero vs.length f = (f1, Res.ok vs) ∧ f1.stream = rest := by
  intro vs
  induction vs with
  | nil =>
    intro bs f rest h hs
    cases h
    exact ⟨f, rfl, hs⟩
  | cons v vs ih =>
    intro bs f rest h hs
    cases h with
    | cons hv hrest =>
      rename_i b bs2
      obtain ⟨f1, e1, s1, -, -⟩ := File.Read_frame c f zero
        (putUint32 (Size b.length)) b (putUint32 (Size b.length)) (encodeLog bs2 ++ rest)
        (putUint32_length _) ((getUint32_Size _).trans (Size_of_lt _ hv.2))
        (putUint32_length _) (by rw [hs, encodeLog, frame]; simp only [List.append_assoc])
      rw [hrt zero v b hv.1] at e1
      obtain ⟨f2, e2, s2⟩ := ih bs2 f1 rest hrest s1
      exact ⟨f2, by simp only [List.length_cons, readN, e1, e2], s2⟩

/-- C13, as the code has it.  For every handle state `f` (in particular one on
a well-formed log of `n` records) and every sequence `ws` of values whose
encodings are shorter than 2^32 - 4 bytes, of any lengths otherwise:
performing `Seek(0, 0); Seek(i, 1); Write(w_i)` for `i = 0, 1, ...` in order
returns nil at every call, and a following `Seek(0, 0)` and as many `Read`s
as there are values yield the values in order. -/
theorem rewriteAll_reads {α : Type} (c : Serializable α)
    (hrt : ∀ (o v : α) (b : List Byte), c.Marshal v = Res.ok b → c.Unmarshal o b = Res.ok v)
    (zero : α) (f : File) (ws : List α) (wbs : List (List Byte))
    (hw : List.Forall₂ (fun v b => c.Marshal v = Res.ok b ∧ b.length + 4 < 2 ^ 32) ws wbs) :
    (rewriteAll c 0 f ws).2 = none ∧
    (Seek (rewriteAll c 0 f ws).1 0 0).2 = none ∧
    (readN c zero ws.length (Seek (rewriteAll c 0 f ws).1 0 0).1).2 = Res.ok ws := by
  obtain ⟨f1, rest1, e1, d1⟩ := rewriteAll_log c ws wbs [] f f.disk hw
    (by intro b hb; cases hb) (by simp [encodeLog])
  simp only [List.length_nil, List.nil_append] at e1 d1
  rw [e1]
  simp only [Seek, File.Seek_zero_start]
  refine ⟨trivial, trivial, ?_⟩
  have hw2 : List.Forall₂ (fun v b => c.Marshal v = Res.ok b ∧ b.length < 2 ^ 32) ws wbs :=
    hw.imp (fun _ _ h => ⟨h.1, by omega⟩)
  obtain ⟨f2, e2, -⟩ := readN_log_rest c hrt zero ws wbs
    { disk := f1.disk, pos := 0, rbuf := [], wbuf := [] } rest1 hw2
    (by simp [File.stream, d1])
  rw [e2]

theorem rewriteAll_reads_witness :
    (rewriteAll rawCodec 0 (NewFile (encodeLog [[1], [2, 3], []])) [[4, 4, 4, 4], [], [5]]).2
      = none ∧
    (Seek (rewriteAll rawCodec 0 (NewFile (encodeLog [[1], [2, 3], []]))
      [[4, 4, 4, 4], [], [5]]).1 0 0).2 = none ∧
    (readN rawCodec [] [[4, 4, 4, 4], [], [5]].length
      (Seek (rewriteAll rawCodec 0 (NewFile (encodeLog [[1], [2, 3], []]))
        [[4, 4, 4, 4], [], [5]]).1 0 0).1).2 = Res.ok [[4, 4, 4, 4], [], [5]] :=
  rewriteAll_reads rawCodec (fun _ _ _ h => by cases h; rfl) []
    (NewFile (encodeLog [[1], [2, 3], []])) [[4, 4, 4, 4], [], [5]] [[4, 4, 4, 4], [], [5]]
    (by
      refine List.Forall₂.cons ⟨rfl, by decide⟩ (List.Forall₂.cons ⟨rfl, by decide⟩
        (List.Forall₂.cons ⟨rfl, by decide⟩ List.Forall₂.nil)))

theorem hugeBody_length : hugeBody.length = 4294967296 := by
  unfold hugeBody
  exact List.length_replicate _ _

/-- The route of C13 with one value whose encoding has 2^32 bytes: the head
of its frame says 0, and the `Read` yields the empty body. -/
theorem rewriteAll_huge (b : List Byte) (hb : b.length = 4294967296) (f : File) :
    (rewriteAll rawCodec 0 f [b]).2 = none ∧
    (Seek (rewriteAll rawCodec 0 f [b]).1 0 0).2 = none ∧
    (readN rawCodec [] 1 (Seek (rewriteAll rawCodec 0 f [b]).1 0 0).1).2 = Res.ok [[]] := by
  have hS : Size b.length = 0 := by rw [hb]; decide
  have h3 := File.Write_eq rawCodec
    { disk := f.disk, pos := 0, rbuf := [], wbuf := [] } b b rfl rfl
  have hr : rewriteAll rawCodec 0 f [b] =
      (fpWrite { disk := f.disk, pos := 0, rbuf := [], wbuf := [] } (frame b), none) := by
    simp only [rewriteAll, Seek, Write, File.Seek_zero_start, Int.ofNat_zero, File.Seek_zero_cur]
    rw [h3]
  rw [hr]
  simp only [Seek, File.Seek_zero_start]
  refine ⟨trivial, trivial, ?_⟩
  obtain ⟨f1, e1, -, -, -⟩ := File.Read_frame rawCodec
    { disk := (fpWrite { disk := f.disk, pos := 0, rbuf := [], wbuf := [] } (frame b)).disk,
      pos := 0, rbuf := [], wbuf := [] } []
    (putUint32 (Size b.length)) [] (b.take 4)
    (b.drop 4 ++ putUint32 (Size b.length) ++ f.disk.drop (0 + (frame b).length))
    (putUint32_length _) (by rw [getUint32_Size, hS]; rfl)
    (by rw [List.length_take, hb]; decide)
    (by
      have hw := drop_writeAt f.disk 0 (frame b)
      rw [List.drop_zero] at hw
      simp only [File.stream, List.nil_append, List.drop_zero, fpWrite, frame_ne_nil, if_false]
      rw [hw, frame]
      simp only [List.append_assoc, List.nil_append]
      rw [← List.append_assoc (List.take 4 b) (List.drop 4 b), List.take_append_drop])
  simp only [readN, e1]
  rfl

/-- C13, the claim as stated fails: with one value whose encoding has 2^32
bytes (an "arbitrary encoded length"), on a log of one record,
`Seek(0, 0); Seek(0, 1); Write(w_0)` and the following `Seek(0, 0)` return
nil, but the `Read` yields the empty body, not the 2^32 bytes of `w_0`. -/
theorem rewriteAll_hugeBody :
    (rewriteAll rawCodec 0 (NewFile (encodeLog [[7]])) [hugeBody]).2 = none ∧
    (Seek (rewriteAll rawCodec 0 (NewFile (encodeLog [[7]])) [hugeBody]).1 0 0).2 = none ∧
    (readN rawCodec [] 1
      (Seek (rewriteAll rawCodec 0 (NewFile (encodeLog [[7]])) [hugeBody]).1 0 0).1).2 =
      Res.ok [[]] ∧
    hugeBody ≠ [] :=
  ⟨(rewriteAll_huge hugeBody hugeBody_length (NewFile (encodeLog [[7]]))).1,
   (rewriteAll_huge hugeBody hugeBody_length (NewFile (encodeLog [[7]]))).2.1,
   (rewriteAll_huge hugeBody hugeBody_length (NewFile (encodeLog [[7]]))).2.2,
   fun h => by
     have := congrArg List.length h
     rw [hugeBody_length] at this
     exact absurd this (by decide)⟩

/-! ## Same-length overwrite after records shorter than 2^32 - 4 bytes -/

theorem writeAt_middle (a m z p : List Byte) (h : p.length = m.length) :
    writeAt (a ++ m ++ z) a.length p = a ++ p ++ z := by
  rw [List.append_assoc, writeAt_after, h, List.drop_left]

/-- From any handle state on a file that begins with the frames of `bs`,
`Seek(n, 0)` with `n` the number of those frames reaches the byte after them. -/
theorem File.Seek_start_forward_rest (bs : List (List Byte)) (rest : List Byte)
    (hs : ∀ b ∈ bs, b.length + 4 < 2 ^ 32) (f : File)
    (hd : f.disk = encodeLog bs ++ rest) :
    File.Seek f (bs.length : Int) 0 =
      ({ disk := f.disk, pos := (encodeLog bs).length, rbuf := [], wbuf := [] }, none) := by
  have h := File.seekLoop_forward_rest bs rest hs bs.length 0 { f with pos := 0 } hd
    (by rw [boundary_zero]) (by omega)
  have hneg : ¬ ((bs.length : Int) < 0) := by omega
  simp only [File.Seek, if_true, fpSeek_start, if_neg hneg, Int.toNat_ofNat]
  rw [h, Nat.zero_add, boundary_length]

/-- The route of C12 when the records before the one overwritten are shorter
than 2^32 - 4 bytes: with the log `xs, b, ys` of the values `vxs, v, vys` and
a value `w` whose encoding `bw` is as long as `b`, `Seek(i, 0)` for `i` the
index of `b` and `Write(w)` return nil from any handle state on the log, the
file is then the log `xs, bw, ys`, of unchanged size, and reading from the
start yields `vxs, w, vys`. -/
theorem overwrite_same_length {α : Type} (c : Serializable α)
    (hrt : ∀ (o v : α) (b : List Byte), c.Marshal v = Res.ok b → c.Unmarshal o b = Res.ok v)
    (zero : α) (vxs vys : List α) (w : α) (xs ys : List (List Byte)) (b bw : List Byte)
    (hx : List.Forall₂ (fun v b => c.Marshal v = Res.ok b ∧ b.length < 2 ^ 32) vxs xs)
    (hy : List.Forall₂ (fun v b => c.Marshal v = Res.ok b ∧ b.length < 2 ^ 32) vys ys)
    (hw : c.Marshal w = Res.ok bw) (hl : bw.length = b.length) (hb : b.length < 2 ^ 32)
    (hs : ∀ x ∈ xs, x.length + 4 < 2 ^ 32)
    (f : File) (hd : f.disk = encodeLog (xs ++ b :: ys)) :
    (Seek f xs.length 0).2 = none ∧
    Write c (Seek f xs.length 0).1 w =
      ({ disk := encodeLog (xs ++ bw :: ys), pos := boundary (xs ++ bw :: ys) (xs.length + 1),
         rbuf := [], wbuf := [] }, none) ∧
    (encodeLog (xs ++ bw :: ys)).length = (encodeLog (xs ++ b :: ys)).length ∧
    (readN c zero (vxs ++ w :: vys).length
      (Seek (Write c (Seek f xs.length 0).1 w).1 0 0).1).2 = Res.ok (vxs ++ w :: vys) := by
  have hd2 : f.disk = encodeLog xs ++ (frame b ++ encodeLog ys) := by
    rw [hd, encodeLog_append, encodeLog]
  have h1 := File.Seek_start_forward_rest xs (frame b ++ encodeLog ys) hs f hd2
  have h2 := File.Write_eq c
    { disk := f.disk, pos := (encodeLog xs).length, rbuf := [], wbuf := [] } w bw hw rfl
  have hfl : (frame bw).length = (frame b).length := by rw [frame_length, frame_length, hl]
  have hdisk : writeAt f.disk (encodeLog xs).length (frame bw) =
      encodeLog (xs ++ bw :: ys) := by
    rw [hd2, ← List.append_assoc, writeAt_middle _ _ _ _ hfl, encodeLog_append, encodeLog,
      List.append_assoc]
  have hw2 : Write c { disk := f.disk, pos := (encodeLog xs).length, rbuf := [], wbuf := [] }
      w = ({ disk := encodeLog (xs ++ bw :: ys),
             pos := boundary (xs ++ bw :: ys) (xs.length + 1), rbuf := [], wbuf := [] },
           none) := by
    rw [Write, h2]
    simp only [fpWrite, frame_ne_nil, if_false, hdisk, boundary_left_succ, frame_length]
    simp only [Nat.add_assoc]
  simp only [Seek]
  rw [h1]
  simp only []
  rw [hw2]
  refine ⟨trivial, rfl, ?_, ?_⟩
  · simp only [encodeLog_append, encodeLog, List.length_append, frame_length, hl]
  · rw [File.Seek_zero_start]
    have hall := List.rel_append hx (List.Forall₂.cons ⟨hw, by omega⟩ hy)
    obtain ⟨f1, e1, -⟩ := readN_log c hrt zero (vxs ++ w :: vys) (xs ++ bw :: ys)
      { disk := encodeLog (xs ++ bw :: ys), pos := 0, rbuf := [], wbuf := [] } hall
      (by simp [File.stream])
    rw [e1]

/-! ## The raw cursor after a buffered Read -/

theorem bufRead_disk (f : File) (k : Nat) : (bufRead f k).1.disk = f.disk := by
  unfold bufRead
  split
  · split <;> rfl
  · rfl

/-- Once the raw cursor is at the end of the file, `rw.Read` leaves it there. -/
theorem bufRead_pos_at_end (f : File) (k : Nat) (h : f.disk.length ≤ f.pos) :
    (bufRead f k).1.pos = f.pos := by
  have hd : f.disk.drop f.pos = [] := List.drop_of_length_le h
  unfold bufRead
  split
  · split <;> simp [fpRead, hd]
  · rfl

/-- With an empty buffer and at most 4096 bytes left in the file, a `rw.Read`
of fewer than 4096 bytes fetches all of them: the raw cursor is then at the
end of the file. -/
theorem bufRead_pos_fill (f : File) (k : Nat) (hr : f.rbuf = []) (hk : k < defaultBufSize)
    (hp : f.pos ≤ f.disk.length) (hl : f.disk.length ≤ f.pos + defaultBufSize) :
    (bufRead f k).1.pos = f.disk.length := by
  unfold bufRead
  rw [if_pos hr, if_neg (by omega)]
  simp only [fpRead, List.length_take, List.length_drop]
  omega

theorem readAtLeast_pos_at_end (fuel : Nat) : ∀ (need : Nat) (f : File) (acc : List Byte),
    f.disk.length ≤ f.pos → (readAtLeast bufRead fuel f need acc).1.pos = f.pos := by
  induction fuel with
  | zero =>
    intro need f acc _
    cases need <;> rfl
  | succ m ih =>
    intro need f acc h
    cases need with
    | zero => rfl
    | succ n =>
      have hp := bufRead_pos_at_end f (n + 1) h
      have hd := bufRead_disk f (n + 1)
      rw [readAtLeast]
      cases hq : bufRead f (n + 1) with
      | mk q1 q2 =>
        rw [hq] at hp hd
        simp only [] at hp hd
        cases q2 with
        | nil => exact hp
        | cons x xs =>
          simp only []
          rw [ih _ q1 _ (by rw [hd, hp]; exact h), hp]

theorem readAtLeast_pos_fill (fuel need : Nat) (f : File) (acc : List Byte)
    (hr : f.rbuf = []) (hk : need + 1 < defaultBufSize) (hp : f.pos ≤ f.disk.length)
    (hl : f.disk.length ≤ f.pos + defaultBufSize) :
    (readAtLeast bufRead (fuel + 1) f (need + 1) acc).1.pos = f.disk.length := by
  have h1 := bufRead_pos_fill f (need + 1) hr hk hp hl
  have hd := bufRead_disk f (need + 1)
  rw [readAtLeast]
  cases hq : bufRead f (need + 1) with
  | mk q1 q2 =>
    rw [hq] at h1 hd
    simp only [] at h1 hd
    cases q2 with
    | nil => exact h1
    | cons x xs =>
      simp only []
      rw [readAtLeast_pos_at_end _ _ q1 _ (by rw [hd, h1]), h1]

/-- A `File.Read` that starts with an empty buffer at most 4096 bytes before
the end of the file leaves the raw cursor at the end of the file, whatever
it returns: the reader of `rw` has fetched the rest of the file. -/
theorem File.Read_pos_fill {α : Type} (c : Serializable α) (f : File) (obj : α)
    (hr : f.rbuf = []) (hp : f.pos ≤ f.disk.length)
    (hl : f.disk.length ≤ f.pos + defaultBufSize) :
    (File.Read c f obj).1.pos = f.disk.length := by
  have h1 : (binaryRead bufRead f).1.pos = f.disk.length := by
    have := readAtLeast_pos_fill 3 3 f [] hr (by decide) hp hl
    unfold binaryRead readFull
    cases hq : readAtLeast bufRead 4 f 4 [] with
    | mk g r =>
      rw [hq] at this
      cases r <;> exact this
  have k1 := binaryRead_buf_keeps f
  unfold File.Read
  cases hq1 : binaryRead bufRead f with
  | mk f1 r1 =>
    rw [hq1] at h1 k1
    simp only [] at h1 k1
    cases r1 with
    | error e => exact h1
    | ok size =>
      have h2 := readAtLeast_pos_at_end size size f1 [] (by rw [k1.1, h1])
      have k2 := readAtLeast_buf_keeps size size f1 []
      simp only [readFull]
      cases hq2 : readAtLeast bufRead size f1 size [] with
      | mk f2 r2 =>
        rw [hq2] at h2 k2
        simp only [] at h2 k2
        cases r2 with
        | error e => exact h2.trans h1
        | ok bytes =>
          have h3 : (binaryRead bufRead f2).1.pos = f2.pos := by
            have := readAtLeast_pos_at_end 4 4 f2 [] (by rw [k2.1, k1.1, h2, h1])
            unfold binaryRead readFull
            cases hq : readAtLeast bufRead 4 f2 4 [] with
            | mk g r =>
              rw [hq] at this
              cases r <;> exact this
          simp only []
          cases hq3 : binaryRead bufRead f2 with
          | mk f3 r3 =>
            rw [hq3] at h3
            simp only [] at h3
            cases r3 with
            | error e => exact h3.trans (h2.trans h1)
            | ok t => exact h3.trans (h2.trans h1)

/-- C18 on the code, for every log of records shorter than 2^32 - 8 bytes
that ends at most 4096 bytes after boundary `k`, with `k + 1 < n`, from any
handle state on the log: `Seek(k, 0)` returns nil and the first `Read`
yields `r_k`, but it leaves the raw cursor at the end of the file, not on
boundary `k + 1`; `Seek(0, 1)` returns nil and keeps that raw cursor, and
the second `Read` returns `io.EOF` instead of `r_(k+1)`. -/
theorem File.Seek_cur_after_Read_small {α : Type} (c : Serializable α)
    (hrt : ∀ (o v : α) (b : List Byte), c.Marshal v = Res.ok b → c.Unmarshal o b = Res.ok v)
    (vs : List α) (bs : List (List Byte))
    (hv : List.Forall₂ (fun v b => c.Marshal v = Res.ok b ∧ b.length < 2 ^ 32) vs bs)
    (hs : ∀ b ∈ bs, b.length + 8 < 2 ^ 32) (hlen : (encodeLog bs).length < 2 ^ 63)
    (k : Nat) (v : α) (hk : vs[k]? = some v) (hk1 : k + 1 < bs.length)
    (hsmall : (encodeLog bs).length ≤ boundary bs k + 4096)
    (f : File) (obj obj2 : α) (hd : f.disk = encodeLog bs) :
    (File.Seek f k 0).2 = none ∧
    (File.Read c (File.Seek f k 0).1 obj).2 = Res.ok v ∧
    (File.Read c (File.Seek f k 0).1 obj).1.pos = (encodeLog bs).length ∧
    boundary bs (k + 1) < (encodeLog bs).length ∧
    (File.Seek (File.Read c (File.Seek f k 0).1 obj).1 0 1).2 = none ∧
    (File.Read c (File.Seek (File.Read c (File.Seek f k 0).1 obj).1 0 1).1 obj2).2 =
      Res.error Err.EOF := by
  have h1 := File.Seek_ok bs hs hlen { f with pos := 0 } 0 k (k : Int) 0 hd
    (boundary_zero bs).symm (Nat.zero_le _) (Or.inl rfl) (by simp) (by omega)
  have h1' : File.Seek f k 0 =
      ({ disk := f.disk, pos := boundary bs k, rbuf := [], wbuf := [] }, none) := by
    rw [← h1]
    simp only [File.Seek, if_true, fpSeek_start]
  rw [h1']
  simp only []
  have hb := boundary_mono bs k (by omega)
  have hpos := File.Read_pos_fill c
    { disk := f.disk, pos := boundary bs k, rbuf := [], wbuf := [] } obj rfl
    (by simp only [hd]; exact hb) (by simp only [hd, defaultBufSize]; exact hsmall)
  have hkeep := File.Read_keeps c
    { disk := f.disk, pos := boundary bs k, rbuf := [], wbuf := [] } obj
  simp only [] at hpos hkeep
  refine ⟨trivial, File.Read_at_boundary c hrt vs bs hv k v hk _ obj hd rfl rfl,
    by rw [hpos, hd], ?_, ?_, ?_⟩
  · obtain ⟨xs, b, ys, rfl, hx⟩ := split_at bs (k + 1) hk1
    rw [← hx, boundary_left, encodeLog_append, List.length_append, encodeLog,
      List.length_append, frame_length]
    omega
  · rw [File.Seek_zero_cur]
  · rw [File.Seek_zero_cur]
    apply File.Read_at_end
    simp only [File.stream, List.nil_append, hkeep.1, hpos]
    exact List.drop_length _

theorem File.Seek_cur_after_Read_small_witness :
    (File.Seek (NewFile (encodeLog [[1], [2]])) (0 : Nat) 0).2 = none ∧
    (File.Read rawCodec (File.Seek (NewFile (encodeLog [[1], [2]])) (0 : Nat) 0).1 []).2 =
      Res.ok [1] ∧
    (File.Read rawCodec (File.Seek (NewFile (encodeLog [[1], [2]])) (0 : Nat) 0).1 []).1.pos =
      (encodeLog [[1], [2]]).length ∧
    boundary [[1], [2]] (0 + 1) < (encodeLog [[1], [2]]).length ∧
    (File.Seek (File.Read rawCodec
      (File.Seek (NewFile (encodeLog [[1], [2]])) (0 : Nat) 0).1 []).1 0 1).2 = none ∧
    (File.Read rawCodec (File.Seek (File.Read rawCodec
      (File.Seek (NewFile (encodeLog [[1], [2]])) (0 : Nat) 0).1 []).1 0 1).1 []).2 =
      Res.error Err.EOF :=
  File.Seek_cur_after_Read_small rawCodec (fun _ _ _ h => by cases h; rfl) [[1], [2]]
    [[1], [2]]
    (List.Forall₂.cons ⟨rfl, by decide⟩ (List.Forall₂.cons ⟨rfl, by decide⟩ List.Forall₂.nil))
    (by decide) (by decide) 0 [1] rfl (by decide) (by decide)
    (NewFile (encodeLog [[1], [2]])) [] [] rfl

/-- A backward step reads the four bytes before the raw cursor `p` as `L`
and moves the cursor to `p - Size(L + 8)`. -/
theorem File.seekOne_backward_raw (f : File) (h4 : 4 ≤ f.pos) (hl : f.pos ≤ f.disk.length)
    (hle : Size (getUint32 ((f.disk.drop (f.pos - 4)).take 4) + 8) ≤ f.pos) :
    f.seekOne (-1) =
      ({ f with pos := f.pos - Size (getUint32 ((f.disk.drop (f.pos - 4)).take 4) + 8) },
        none) := by
  have e0 : fpSeek f (-4) 1 = ({ f with pos := f.pos - 4 }, none) :=
    fpSeek_cur_back f 4 h4
  have hb2 := binaryRead_fp_ok { f with pos := f.pos - 4 } (by simp only []; omega)
  simp only [] at hb2
  have e2 := fpSeek_cur_back { f with pos := f.pos - 4 + 4 }
    (Size (getUint32 ((f.disk.drop (f.pos - 4)).take 4) + 8)) (by simp only []; omega)
  have hneg : (-1 : Int) * ((Size (getUint32 ((f.disk.drop (f.pos - 4)).take 4) + 8) : Nat)
      : Int) = -((Size (getUint32 ((f.disk.drop (f.pos - 4)).take 4) + 8) : Nat) : Int) := by
    omega
  unfold File.seekOne
  rw [if_neg (by decide), if_pos rfl, e0]
  simp only []
  rw [hb2]
  simp only [if_true]
  rw [if_neg (by decide), hneg, e2]
  have e3 : f.pos - 4 + 4 = f.pos := by omega
  simp only [e3]

/-- A backward step over a tail that announces `L < 2^32 - 8` bytes, with at
least `8 + L` bytes before the raw cursor `p`, moves the cursor to `p - 8 - L`. -/
theorem File.seekOne_backward_small (f : File) (h4 : 4 ≤ f.pos) (hl : f.pos ≤ f.disk.length)
    (hL : getUint32 ((f.disk.drop (f.pos - 4)).take 4) + 8 < 2 ^ 32)
    (hp : getUint32 ((f.disk.drop (f.pos - 4)).take 4) + 8 ≤ f.pos) :
    f.seekOne (-1) =
      ({ f with pos := f.pos - 8 - getUint32 ((f.disk.drop (f.pos - 4)).take 4) }, none) := by
  rw [File.seekOne_backward_raw f h4 hl (by rw [Size_of_lt _ hL]; exact hp), Size_of_lt _ hL]
  have : f.pos - (getUint32 ((f.disk.drop (f.pos - 4)).take 4) + 8) =
      f.pos - 8 - getUint32 ((f.disk.drop (f.pos - 4)).take 4) := by omega
  rw [this]

end Persistence
